import Mathlib

/-!
ToshibaComExtractor: the codec and the container scanner of `comextract.c`.

A shallow embedding of `check`, `apply`, `build_table`, `decode_block`,
`decompress` and `comextract`, followed by the properties proved about them.

Conventions of the embedding.
* The bytes reachable through `gCurrentInput` are a function `mem : Nat → Nat`
  from addresses to values; every load is reduced modulo 256. The C functions
  of the codec receive a bare pointer and no length, so a load is defined at
  every address.
* `uint16_t` arithmetic is arithmetic on `Nat` reduced modulo 65536, and the
  `uint32_t` loop counter of `decode_block` is reduced modulo 2^32.
* `gBigTable` and `gSmallTable` are functions from indices to values; every
  load from a table is reduced modulo 65536. The C arrays have 1024 entries;
  `build_table` stores at indices of at most 1020.
* `size_t` values (`gNumDecodedBytes`, the sizes and offsets of `comextract`)
  are plain `Nat`: they count bytes held in memory and stay far below 2^64.
* `printf` calls are dropped; `realloc` is taken to succeed.
* The state carries two ghost counters, the numbers of `check` and `apply`
  calls made so far. No code reads them; they only let call counts be stated.
-/

namespace ComExtract

/-- Codec state: the globals of `comextract.c` together with the locals of
`decode_block` that `check`, `apply` and `build_table` reach through pointers. -/
structure State where
  /-- the memory read through `gCurrentInput` -/
  mem : Nat → Nat
  /-- `gCurrentInput`, as an address -/
  cur : Nat
  /-- the bytes stored through `gCurrentOutput`, oldest first -/
  out : List Nat
  /-- `gNumDecodedBytes` -/
  num : Nat
  /-- `gBigTable` -/
  big : Nat → Nat
  /-- `gSmallTable` -/
  small : Nat → Nat
  /-- `first[1]`, the bit counter (`input[1]` in `check` and `apply`) -/
  cnt : Nat
  /-- `*(uint16_t *)second`, the shift register (`output` in `check`) -/
  reg : Nat
  /-- the low half of `i` in `decode_block` (`*index` in `build_table`) -/
  node : Nat
  /-- `index` in `decode_block` (`*value` in `build_table`) -/
  value : Nat
  /-- ghost: how many times `check` has been called; read by no code -/
  nCheck : Nat
  /-- ghost: how many times `apply` has been called; read by no code -/
  nApply : Nat

/-- Load of one byte: `mem[p]` as a `uint8_t`. -/
def load (mem : Nat → Nat) (p : Nat) : Nat := mem p % 256

/-- Store to a table slot: `t[i] = v`. -/
def store (t : Nat → Nat) (i v : Nat) : Nat → Nat :=
  fun j => if j = i then v else t j

/-- Replace the low byte of a 16-bit value: `*output = b`. -/
def setLow (reg b : Nat) : Nat := reg / 256 * 256 + b

/-- The function `check` (lines 35-47): returns the top bit of the register's
high byte, doubles the register, counts the bit, and on the eighth bit
resets the counter and reloads the register's low byte from the stream. -/
def check (s : State) : Nat × State :=
  (if Nat.land (s.reg / 256 % 256) 0x80 ≠ 0 then 1 else 0,
   if Nat.land ((s.cnt + 1) % 256) 8 = 8 then
     { s with cnt := 0, reg := setLow (s.reg * 2 % 65536) (load s.mem s.cur), cur := s.cur + 1,
              nCheck := s.nCheck + 1 }
   else
     { s with cnt := (s.cnt + 1) % 256, reg := s.reg * 2 % 65536, nCheck := s.nCheck + 1 })

/-- The function `apply` (lines 49-55): stores the register's high byte in
`*index` (the caller passes `value`), then realigns the register around one
fresh stream byte. The shift count `8 - input[1]` is taken as 0 for a counter
above 8, where C leaves the shift undefined; the counter stays in 0..7 once
`decode_block` has cleared it. -/
def apply (s : State) : State :=
  { s with value := s.reg / 256 % 256,
           reg := setLow (s.reg * 2 ^ (8 - s.cnt) % 65536) (load s.mem s.cur) * 2 ^ s.cnt % 65536,
           cur := s.cur + 1, nApply := s.nApply + 1 }

/-- The function `build_table` (lines 57-93). The first argument bounds the
recursion depth; `none` means the bound was reached. The result is the
returned `uint8_t` together with the state left behind. -/
def build_table : Nat → State → Option (Nat × State)
  | 0, _ => none
  | fuel + 1, s =>
    let (bit, s1) := check s
    if bit ≠ 0 then
      let s2 := { s1 with node := (s1.node + 1) % 65536 }
      if s2.node < 511 then
        let local_index := 2 * s2.node % 65536
        match build_table fuel s2 with
        | none => none
        | some (result, s3) =>
          if result = 0 then
            let s4 := { s3 with big := store s3.big local_index s3.value }
            match build_table fuel s4 with
            | none => none
            | some (result2, s5) =>
              if result2 = 0 then
                some (0, { s5 with small := store s5.small local_index s5.value,
                                   value := local_index / 2 })
              else some (result2, s5)
          else some (result, s3)
      else some (1, s2)
    else some (0, apply s1)

/-- The inner `while (index >= 0x100)` loop of `decode_block` (lines 126-136):
follows table entries, one stream bit per step, until the current value is
below 256. The first argument bounds the number of passes. -/
def walk : Nat → State → Option State
  | 0, s => if s.value ≥ 0x100 then none else some s
  | fuel + 1, s =>
    if s.value ≥ 0x100 then
      let idx := s.value * 2 % 65536
      let (bit, s1) := check s
      if bit ≠ 0 then walk fuel { s1 with value := s1.small idx % 65536 }
      else walk fuel { s1 with value := s1.big idx % 65536 }
    else some s

/-- One pass of the `do` body of `decode_block` (lines 125-138) apart from
`--i`: restart at the root, walk to a leaf, store it. The bound of 256 steps on
the walk is never reached on tables `build_table` has filled from a node
counter of 255 (`walk_total`). -/
def emit (root : Nat) (s : State) : Option State :=
  match walk 256 { s with value := root } with
  | none => none
  | some s1 => some { s1 with out := s1.out ++ [s1.value % 256], num := s1.num + 1 }

/-- The loop `do { ... --i; } while (i);` of `decode_block` (lines 123-140).
The argument `k` is the value `i` holds after the `--i` of the current pass,
so the body runs now and then once for each of `k - 1, ..., 0`. -/
def emitLoop (root : Nat) : Nat → State → Option State
  | 0, s => emit root s
  | k + 1, s =>
    match emit root s with
    | none => none
    | some s1 => emitLoop root k s1

/-- The state in which `decode_block` calls `build_table` (lines 112-118):
`first[1] = 0` clears the bit counter, the register `second[1]:second[0]` is
loaded from the two bytes after the count, the cursor has passed five bytes,
`i = 0xFF` sets the node counter and `index` is still 0. -/
def seed (s : State) : State :=
  { s with cnt := 0,
           reg := load s.mem (s.cur + 3) * 256 + load s.mem (s.cur + 4),
           cur := s.cur + 5, node := 0xFF, value := 0 }

/-- The function `decode_block` (lines 95-148). `stored_i` is rebuilt from the
three count bytes through the four bytes of `first` (little-endian); then the
tree is built from the state `seed s` (a depth bound of 256 is never reached
from a node counter of 255, see `build_table_fuel`), and the symbol loop runs
with `i` starting at `stored_i`: its first `--i` wraps modulo 2^32. The result
is never `none` (`decode_block_total`). -/
def decode_block (s : State) : Option (Nat × State) :=
  -- *(uint16_t *)first = *gCurrentInput;  first was { 0,0,0,0 }
  let w16 := load s.mem s.cur
  -- *(uint32_t *)first = *(uint16_t *)first << 16;
  let w32 := w16 * 65536 % 4294967296
  -- first[1] = gCurrentInput[1]; first[0] = gCurrentInput[2];
  let first0 := load s.mem (s.cur + 2)
  let first1 := load s.mem (s.cur + 1)
  let first2 := w32 / 65536 % 256
  let first3 := w32 / 16777216 % 256
  -- stored_i = *(uint32_t *)first;
  let stored_i := first0 + first1 * 256 + first2 * 65536 + first3 * 16777216
  match build_table 256 (seed s) with
  | none => none
  | some (result, s1) =>
    if result = 0 then
      match emitLoop s1.value ((stored_i + 4294967295) % 4294967296) s1 with
      | none => none
      | some s2 =>
        let s3 := { s2 with cur := s2.cur - 1 }
        if s3.cnt = 0 then some (0, { s3 with cur := s3.cur - 1 })
        else some (0, s3)
    else some (result, s1)

/-- Memory holding the bytes of `l` from address 0 on, and 0 elsewhere. -/
def memOf (l : List Nat) : Nat → Nat := fun p => l.getD p 0

/-- The state `decompress` sets up (lines 156-160). -/
def initState (mem : Nat → Nat) (input : Nat) : State :=
  { mem := mem, cur := input, out := [], num := 0,
    big := fun _ => 0, small := fun _ => 0, cnt := 0, reg := 0, node := 0, value := 0,
    nCheck := 0, nApply := 0 }

/-- The loop `while (1)` of `decompress` (lines 162-171). The first argument
bounds the number of markers read. -/
def blocks : Nat → State → Option (Nat × State)
  | 0, _ => none
  | fuel + 1, s =>
    let currentByte := load s.mem s.cur
    let s1 := { s with cur := s.cur + 1 }
    if currentByte ≠ 1 then some (if currentByte ≠ 0 then 1 else 0, s1)
    else
      match decode_block s1 with
      | none => none
      | some (result, s2) =>
        if result ≠ 0 then some (result, s2) else blocks fuel s2

/-- The function `decompress` (lines 150-172), reading from address `input`. -/
def decompress (fuel : Nat) (mem : Nat → Nat) (input : Nat) : Option (Nat × State) :=
  blocks fuel (initState mem input)

/-! ## The serialized tree and the reference decoder -/

/-- A decode tree: leaves carry a byte, internal nodes a 0-child and a 1-child. -/
inductive Tree where
  | leaf (b : Fin 256) : Tree
  | node (zero one : Tree) : Tree

/-- The eight bits of a byte, most significant first. -/
def byteBits (b : Nat) : List Bool :=
  [b / 128 % 2 = 1, b / 64 % 2 = 1, b / 32 % 2 = 1, b / 16 % 2 = 1,
   b / 8 % 2 = 1, b / 4 % 2 = 1, b / 2 % 2 = 1, b % 2 = 1]

namespace Tree

/-- Depth-first serialization: 1 then both children for an internal node,
0 then the eight bits of the byte for a leaf. -/
def bits : Tree → List Bool
  | leaf b => false :: byteBits b.val
  | node l r => true :: (bits l ++ bits r)

/-- Number of internal nodes. -/
def internal : Tree → Nat
  | leaf _ => 0
  | node l r => internal l + internal r + 1

/-- Number of leaves. -/
def leaves : Tree → Nat
  | leaf _ => 1
  | node l r => leaves l + leaves r

/-- Number of levels. -/
def depth : Tree → Nat
  | leaf _ => 1
  | node l r => max (depth l) (depth r) + 1

/-- Reference prefix-code decoding of one symbol: from the root, a 1 bit
takes the 1-child and a 0 bit the 0-child, until a leaf is reached. Returns
the leaf and the bits left over; `none` if the bits run out. -/
def decode1 : Tree → List Bool → Option (Nat × List Bool)
  | leaf b, bs => some (b.val, bs)
  | node _ _, [] => none
  | node l r, b :: bs => if b then decode1 r bs else decode1 l bs

/-- Reference decoding of `n` symbols in a row. -/
def decode (t : Tree) : Nat → List Bool → Option (List Nat × List Bool)
  | 0, bs => some ([], bs)
  | n + 1, bs =>
    match decode1 t bs with
    | none => none
    | some (b, rest) =>
      match decode t n rest with
      | none => none
      | some (out, rest2) => some (b :: out, rest2)

end Tree

/-- Bit `i` of the bitstream starting at byte address `base`: bytes in
address order, most significant bit first. -/
def bitAt (mem : Nat → Nat) (base i : Nat) : Nat :=
  load mem (base + i / 8) / 2 ^ (7 - i % 8) % 2

/-- The bits `l` stand in the bitstream at `base`, from bit `pos` on. -/
def HasBits (mem : Nat → Nat) (base : Nat) : Nat → List Bool → Prop
  | _, [] => True
  | pos, b :: bs => bitAt mem base pos = (if b then 1 else 0) ∧ HasBits mem base (pos + 1) bs

/-- The register, counter and cursor hold bit position `8 * q + c` of the
bitstream at `base`: the register's top `16 - c` bits are the next bits of
the stream and the cursor is two bytes ahead of byte `q`. -/
def Sync (base q c : Nat) (s : State) : Prop :=
  s.cnt = c ∧ s.cur = base + q + 2 ∧
  s.reg = (load s.mem (base + q) * 256 + load s.mem (base + q + 1)) * 2 ^ c % 65536

/-- The reader stands at bit `pos` of the bitstream at `base`. -/
def Synced (base pos : Nat) (s : State) : Prop := Sync base (pos / 8) (pos % 8) s

/-- The function `check` called `n` times in a row: the bits returned, in call
order, and the state left behind. -/
def checkN : Nat → State → List Nat × State
  | 0, s => ([], s)
  | n + 1, s => ((check s).1 :: (checkN n (check s).2).1, (checkN n (check s).2).2)

/-- The number written by a list of bits, most significant first. -/
def bitsVal (l : List Nat) : Nat := l.foldl (fun acc b => 2 * acc + b) 0

/-- The two tables hold the tree `t` under the reference `v`, with node ids
given out in depth-first order from `lo + 1` on: a leaf is referred to by its
byte, an internal node by its id, and the children of node `id` are the
entries `gBigTable[2 * id]` (0-child) and `gSmallTable[2 * id]` (1-child). -/
def Rep (big small : Nat → Nat) : Tree → Nat → Nat → Prop
  | Tree.leaf b, _, v => v = b.val
  | Tree.node l r, lo, v =>
    v = lo + 1 ∧ Rep big small l (lo + 1) (big (2 * (lo + 1))) ∧
      Rep big small r (lo + 1 + l.internal) (small (2 * (lo + 1)))

/-- The 24-bit count written by the three bytes at `p`, first byte most
significant. -/
def count24 (mem : Nat → Nat) (p : Nat) : Nat :=
  load mem p * 65536 + load mem (p + 1) * 256 + load mem (p + 2)

/-- Whether given bits stand in the bitstream can be computed. -/
instance hasBitsDecidable (mem : Nat → Nat) (base : Nat) :
    ∀ (pos : Nat) (l : List Bool), Decidable (HasBits mem base pos l)
  | _, [] => isTrue trivial
  | pos, _ :: bs => @instDecidableAnd _ _ _ (hasBitsDecidable mem base (pos + 1) bs)

/-- A left-leaning comb with `n` internal nodes, every leaf the byte 0. -/
def comb : Nat → Tree
  | 0 => Tree.leaf 0
  | n + 1 => Tree.node (comb n) (Tree.leaf 0)

/-- A block with count 1 whose bitstream starts with 256 one bits (32 bytes
0xFF) and goes on with zero bits: the serialization of `comb 256`. -/
def combBlock : Nat → Nat :=
  fun p => if p < 2 then 0 else if p = 2 then 1 else if p < 35 then 0xFF else 0

/-- A well-formed block as the stream presents it: its tree, the symbol bits
that follow the tree, and the bytes the reference decoder reads from them. -/
structure Block where
  tree : Tree
  sym : List Bool
  outs : List Nat

/-- The block `b` stands at address `p`: a count of at least 1 in three bytes,
then the bitstream of a tree with at most 255 internal nodes followed by the
symbol bits, which decode to exactly `count` bytes with no bit left over. -/
def BlockAt (mem : Nat → Nat) (p : Nat) (b : Block) : Prop :=
  1 ≤ count24 mem p ∧ b.tree.internal ≤ 255 ∧
  HasBits mem (p + 3) 0 (b.tree.bits ++ b.sym) ∧
  b.tree.decode (count24 mem p) b.sym = some (b.outs, [])

/-- Bytes a block occupies: three count bytes and the bytes holding its bits. -/
def Block.size (b : Block) : Nat := 3 + (b.tree.bits.length + b.sym.length + 7) / 8

/-- The stream at address `p` consists of the blocks `bs`, each preceded by the
marker byte 1, followed by the marker byte 0. -/
def StreamAt (mem : Nat → Nat) : Nat → List Block → Prop
  | p, [] => load mem p = 0
  | p, b :: bs => load mem p = 1 ∧ BlockAt mem (p + 1) b ∧ StreamAt mem (p + 1 + b.size) bs

/-- The bytes of the blocks, concatenated in stream order. -/
def outputOf : List Block → List Nat
  | [] => []
  | b :: bs => b.outs ++ outputOf bs

/-- Little-endian load of a `uint16_t`. -/
def load16 (mem : Nat → Nat) (p : Nat) : Nat := load mem p + load mem (p + 1) * 256

/-- Little-endian load of a `uint32_t`. -/
def load32 (mem : Nat → Nat) (p : Nat) : Nat :=
  load mem p + load mem (p + 1) * 256 + load mem (p + 2) * 65536 + load mem (p + 3) * 16777216

/-- The locals of `comextract` that live across loop passes: the loop variable
`i`, the accumulated `size`, and the contents of the `output` allocation, one
entry per byte, `none` for a byte that `realloc` handed out and nothing has
stored to since. -/
structure Scan where
  i : Nat
  size : Nat
  output : List (Option Nat)

/-- How one pass of the loop body of `comextract` ends. -/
inductive Step where
  /-- the body ran to its end or hit `continue`; the `for` then does `i++` -/
  | next (sc : Scan)
  /-- `break` -/
  | brk
  /-- `return code` from inside the loop -/
  | ret (code : Nat)
  /-- `decompress` stored more bytes than the allocation holds -/
  | overrun
  /-- the bound on the markers `decompress` may read was reached -/
  | unfinished

/-- The body of the `for` loop of `comextract` (lines 184-275) at offset
`sc.i`. The packed header has `Zero` at offset 0, `HeaderVersion` at 2,
`Signature` at 3, `Compressed` at 27, `CompressedSize` at 36 and
`DecompressedSizeShifted` at 40; `sizeof(TOSHIBA_COM_HEADER)` is 42.
`fuel` is handed to `decompress`. -/
def candidate (fuel : Nat) (mem : Nat → Nat) (input_size : Nat) (sc : Scan) : Step :=
  if load32 mem (sc.i + 3) = 0x534F4942 then
    let rest := input_size - sc.i + 3
    if rest < 42 then Step.brk
    else if load16 mem sc.i ≠ 0 then Step.next sc
    else
      let header_size :=
        if load mem (sc.i + 2) = 0 then 0x100
        else if load mem (sc.i + 2) = 2 then 0x200
        else 0x200
      if rest < header_size + 4 then Step.next sc
      else if load mem (sc.i + 27) > 1 then Step.next sc
      else
        let compressed_size := load32 mem (sc.i + 36)
        let decompressed_size := load16 mem (sc.i + 40) * 2 ^ 10
        if compressed_size > decompressed_size then Step.next sc
        else if decompressed_size > 0x400000 then Step.next sc
        else if rest < header_size + compressed_size then Step.next sc
        else if load mem (sc.i + 27) = 0 then Step.ret 1
        else if load mem (sc.i + 27) = 1 then
          -- size += decompressed_size; output = realloc(output, size);
          -- decompress(header + header_size, output + size - decompressed_size)
          match decompress fuel mem (sc.i + header_size) with
          | none => Step.unfinished
          | some (result, st) =>
            if st.out.length > decompressed_size then Step.overrun
            else if result ≠ 0 then Step.ret 1
            else
              Step.next
                { i := sc.i + (header_size + compressed_size),
                  size := sc.size + decompressed_size,
                  output := sc.output ++ st.out.map some
                    ++ List.replicate (decompressed_size - st.out.length) none }
        else Step.next sc
  else Step.next sc

/-- What a call of `comextract` leaves behind. -/
inductive Result where
  /-- returned `code`; `written` holds what was stored to `*output_buffer`
  and `*output_size`, if anything was -/
  | done (code : Nat) (written : Option (List (Option Nat) × Nat))
  /-- `decompress` stored more bytes than the allocation holds -/
  | overrun
  /-- a bound was reached -/
  | unfinished

/-- The code after the loop of `comextract` (lines 278-285). -/
def finish (sc : Scan) : Result :=
  if sc.size = 0 then Result.done 1 none
  else Result.done 0 (some (sc.output, sc.size))

/-- The `for` loop of `comextract` (line 183). The first numeric argument
bounds the number of passes; passes beyond `input_size - 42 - i` are never used
since `i` grows by at least one in each (`scan_bound`). -/
def scan (fuel : Nat) (mem : Nat → Nat) (input_size : Nat) : Nat → Scan → Result
  | 0, _ => Result.unfinished
  | k + 1, sc =>
    if sc.i < input_size - 42 then
      match candidate fuel mem input_size sc with
      | Step.next sc2 => scan fuel mem input_size k { sc2 with i := sc2.i + 1 }
      | Step.brk => finish sc
      | Step.ret code => Result.done code none
      | Step.overrun => Result.overrun
      | Step.unfinished => Result.unfinished
    else finish sc

/-- The function `comextract` (lines 174-286) on the buffer formed by the
first `input_size` bytes of `mem`. -/
def comextract (fuel : Nat) (mem : Nat → Nat) (input_size : Nat) : Result :=
  if input_size < 0x100 then Result.done 1 none
  else scan fuel mem input_size input_size { i := 0, size := 0, output := [] }

/-- A file image: the signature `BIOS` at offset 3 of a header at offset 0 with
`Zero` 0, version 0, `Compressed` 1, `CompressedSize` `S` (below 256),
`DecompressedSizeShifted` 1, and zero bytes everywhere else, so the payload at
offset 256 starts with the end marker. -/
def sampleFile (S : Nat) : Nat → Nat :=
  fun p => if p = 3 then 0x42 else if p = 4 then 0x49 else if p = 5 then 0x4F
    else if p = 6 then 0x53 else if p = 27 then 1 else if p = 36 then S
    else if p = 40 then 1 else 0

/-- The file image `sampleFile 7` with the compressed stream
`01 00 00 02 41 00 00` as payload at offset 256: one block of count 2 whose
tree is the single leaf 0x82, then the end marker. -/
def sampleBlockFile : Nat → Nat :=
  fun p => if 256 ≤ p then memOf [1, 0, 0, 2, 0x41, 0x00, 0] (p - 256) else sampleFile 7 p

/-- The state a run of the codec ended in (the initial state if it did not end). -/
def finalState (r : Option (Nat × State)) : State :=
  match r with
  | some (_, s) => s
  | none => initState (fun _ => 0) 0

/-- A 600-byte file image with two segments back to back: a header at offset
0 (version 0, `Compressed` 1, `CompressedSize` 1, `DecompressedSizeShifted` 1)
whose one-byte payload at offset 256 is the end marker, and directly after it,
at offset 257 = 0 + 256 + 1, a second header with the same fields whose payload
at offset 513 is the end marker as well. -/
def twoSegments : Nat → Nat :=
  fun p => if p = 3 ∨ p = 260 then 0x42 else if p = 4 ∨ p = 261 then 0x49
    else if p = 5 ∨ p = 262 then 0x4F else if p = 6 ∨ p = 263 then 0x53
    else if p = 27 ∨ p = 284 then 1 else if p = 36 ∨ p = 293 then 1
    else if p = 40 ∨ p = 297 then 1 else 0

/-- The reference `v` and the table entries below it tell leaves from internal
nodes by the threshold 256: a leaf of the tree is referred to by its byte, below
256, and an internal node by an id in 256..510 whose children are referred to
by `gBigTable[2 * id]` and `gSmallTable[2 * id]`. -/
def Refs (big small : Nat → Nat) : Tree → Nat → Prop
  | Tree.leaf b, v => v = b.val ∧ v < 256
  | Tree.node l r, v =>
    256 ≤ v ∧ v ≤ 510 ∧ Refs big small l (big (2 * v)) ∧ Refs big small r (small (2 * v))

/-- Every child entry stored for a node id in `lo+1 .. hi` is a leaf byte
(below 256) or a node id above the node's own and at most `hi`. -/
def TableOk (big small : Nat → Nat) (lo hi : Nat) : Prop :=
  ∀ id, lo < id → id ≤ hi →
    (big (2 * id) < 256 ∨ (id < big (2 * id) ∧ big (2 * id) ≤ hi)) ∧
    (small (2 * id) < 256 ∨ (id < small (2 * id) ∧ small (2 * id) ≤ hi))

/-- The state `s` with other contents in `gBigTable` and `gSmallTable`. -/
def withTables (s : State) (big small : Nat → Nat) : State :=
  { s with big := big, small := small }

/-- The `n` bits of the bitstream at `base` from bit `pos` on. -/
def streamBits (mem : Nat → Nat) (base : Nat) : Nat → Nat → List Bool
  | _, 0 => []
  | pos, n + 1 => decide (bitAt mem base pos = 1) :: streamBits mem base (pos + 1) n

/-- A call made on the bit cursor: `check` or `apply`. -/
inductive Op where
  | chk
  | app

/-- The eight bits of a leaf byte as numbers, most significant first. -/
def valBits (v : Nat) : List Nat :=
  [v / 128 % 2, v / 64 % 2, v / 32 % 2, v / 16 % 2, v / 8 % 2, v / 4 % 2, v / 2 % 2, v % 2]

/-- A sequence of `check` and `apply` calls run in order: the bits they return
(one per `check`, the eight bits of the captured byte per `apply`) and the
state left behind. -/
def runOps : List Op → State → List Nat × State
  | [], s => ([], s)
  | Op.chk :: ops, s => ((check s).1 :: (runOps ops (check s).2).1, (runOps ops (check s).2).2)
  | Op.app :: ops, s =>
    (valBits (apply s).value ++ (runOps ops (apply s)).1, (runOps ops (apply s)).2)

/-- A plain bit reader: the `n` bits of the bytes at `base`, bytes in address
order and each byte most significant bit first, from bit `pos` on. -/
def plainBits (mem : Nat → Nat) (base : Nat) : Nat → Nat → List Nat
  | _, 0 => []
  | pos, n + 1 => bitAt mem base pos :: plainBits mem base (pos + 1) n

/-- The node ids the inner loop of `decode_block` passes through: the value
`index` holds at the head of each pass, for at most the given number of passes.
The state moves from pass to pass as in `walk`. -/
def path : Nat → State → List Nat
  | 0, _ => []
  | fuel + 1, s =>
    if s.value ≥ 0x100 then
      s.value ::
        path fuel
          (if (check s).1 ≠ 0 then
            { (check s).2 with value := (check s).2.small (s.value * 2 % 65536) % 65536 }
          else { (check s).2 with value := (check s).2.big (s.value * 2 % 65536) % 65536 })
    else []

/-! ## The bit cursor -/

theorem load_lt (mem : Nat → Nat) (p : Nat) : load mem p < 256 := Nat.mod_lt _ (by decide)

set_option maxRecDepth 100000 in
theorem land128 : ∀ h, h < 256 → (Nat.land h 128 ≠ 0 ↔ 128 ≤ h) := by decide

theorem topbit (r : Nat) : (if Nat.land (r / 256 % 256) 0x80 ≠ 0 then 1 else 0) = r / 32768 % 2 := by
  have hl := land128 (r / 256 % 256) (Nat.mod_lt _ (by decide))
  by_cases h : 128 ≤ r / 256 % 256
  · rw [if_pos (hl.2 h)]; omega
  · rw [if_neg (fun h2 => h (hl.1 h2))]; omega

theorem check_fst (s : State) : (check s).1 = s.reg / 32768 % 2 := topbit s.reg

theorem check_snd_lt (s : State) (h : s.cnt < 7) :
    (check s).2 = { s with cnt := s.cnt + 1, reg := s.reg * 2 % 65536, nCheck := s.nCheck + 1 } := by
  have h8 : ¬ Nat.land ((s.cnt + 1) % 256) 8 = 8 := by
    generalize s.cnt = c at h
    interval_cases c <;> decide
  have hm : (s.cnt + 1) % 256 = s.cnt + 1 := by omega
  simp only [check, hm] at h8 ⊢
  rw [if_neg h8]

theorem check_snd_7 (s : State) (h : s.cnt = 7) :
    (check s).2 = { s with cnt := 0, reg := setLow (s.reg * 2 % 65536) (load s.mem s.cur),
                           cur := s.cur + 1, nCheck := s.nCheck + 1 } := by
  have h8 : Nat.land ((s.cnt + 1) % 256) 8 = 8 := by rw [h]; decide
  simp only [check, if_pos h8]

theorem check_sync_lt (base q c : Nat) (s : State) (hc : c < 7) (h : Sync base q c s) :
    (check s).1 = load s.mem (base + q) / 2 ^ (7 - c) % 2 ∧ Sync base q (c + 1) (check s).2 := by
  obtain ⟨h1, h2, h3⟩ := h
  have ha := load_lt s.mem (base + q)
  have hb := load_lt s.mem (base + q + 1)
  rw [check_fst, check_snd_lt s (by omega)]
  refine ⟨?_, by simp [h1], h2, ?_⟩
  · rw [h3]
    generalize load s.mem (base + q) = a at ha
    generalize load s.mem (base + q + 1) = b at hb
    interval_cases c <;> simp <;> omega
  · show s.reg * 2 % 65536 = _
    rw [h3]
    generalize load s.mem (base + q) = a at ha
    generalize load s.mem (base + q + 1) = b at hb
    interval_cases c <;> simp <;> omega

theorem check_sync_7 (base q : Nat) (s : State) (h : Sync base q 7 s) :
    (check s).1 = load s.mem (base + q) % 2 ∧ Sync base (q + 1) 0 (check s).2 := by
  obtain ⟨h1, h2, h3⟩ := h
  have ha := load_lt s.mem (base + q)
  have hb := load_lt s.mem (base + q + 1)
  have hc := load_lt s.mem (base + q + 2)
  rw [check_fst, check_snd_7 s h1]
  refine ⟨?_, rfl, ?_, ?_⟩
  · rw [h3]
    generalize load s.mem (base + q) = a at ha
    generalize load s.mem (base + q + 1) = b at hb
    simp; omega
  · show s.cur + 1 = _
    omega
  · show setLow (s.reg * 2 % 65536) (load s.mem s.cur) = _
    rw [h3, h2, show base + (q + 1) = base + q + 1 by omega,
      show base + q + 1 + 1 = base + q + 2 by omega]
    unfold setLow
    generalize load s.mem (base + q) = a at ha
    generalize load s.mem (base + q + 1) = b at hb
    generalize load s.mem (base + q + 2) = c at hc
    simp; omega
theorem dbl_mod (x a b : Nat) : x * a % 65536 * b % 65536 = x * (a * b) % 65536 := by
  rw [Nat.mod_mul_mod, Nat.mul_assoc]

theorem bits8 (r : Nat) :
    2 * (2 * (2 * (2 * (2 * (2 * (2 * (r / 32768 % 2) + r / 16384 % 2) + r / 8192 % 2)
      + r / 4096 % 2) + r / 2048 % 2) + r / 1024 % 2) + r / 512 % 2) + r / 256 % 2
    = r / 256 % 256 := by
  rw [show r / 256 % 256 = 2 * (r / 512 % 128) + r / 256 % 2 by omega,
    show r / 512 % 128 = 2 * (r / 1024 % 64) + r / 512 % 2 by omega,
    show r / 1024 % 64 = 2 * (r / 2048 % 32) + r / 1024 % 2 by omega,
    show r / 2048 % 32 = 2 * (r / 4096 % 16) + r / 2048 % 2 by omega,
    show r / 4096 % 16 = 2 * (r / 8192 % 8) + r / 4096 % 2 by omega,
    show r / 8192 % 8 = 2 * (r / 16384 % 4) + r / 8192 % 2 by omega,
    show r / 16384 % 4 = 2 * (r / 32768 % 2) + r / 16384 % 2 by omega]

theorem apply_checks_state (s : State) (hc : s.cnt < 8) :
    (checkN 8 s).2 =
      { apply s with value := s.value, nCheck := s.nCheck + 8, nApply := s.nApply } := by
  obtain ⟨mem, cur, out, num, big, small, cnt, reg, node, value, nc, na⟩ := s
  simp only at hc
  have hlt := load_lt mem cur
  interval_cases cnt
  all_goals
    simp [checkN, check_snd_lt, check_snd_7, apply, setLow, dbl_mod]
    try omega

theorem apply_checks_bits (s : State) (hc : s.cnt < 8) :
    bitsVal (checkN 8 s).1 = (apply s).value := by
  obtain ⟨mem, cur, out, num, big, small, cnt, reg, node, value, nc, na⟩ := s
  simp only at hc
  have hlt := load_lt mem cur
  show _ = reg / 256 % 256
  rw [← bits8]
  interval_cases cnt
  all_goals
    simp only [checkN, check_fst, check_snd_lt, check_snd_7, bitsVal, setLow, dbl_mod, List.foldl,
      Nat.mul_zero, Nat.zero_add, Nat.reduceLT, Nat.reduceMul, Nat.lt_irrefl, Nat.reduceAdd]
    iterate 7 (refine congrArg₂ (fun a b => 2 * a + b) ?_ ?_)
    all_goals omega

@[simp] theorem check_mem (s : State) : (check s).2.mem = s.mem := by
  unfold check; dsimp only; split <;> rfl
@[simp] theorem check_out (s : State) : (check s).2.out = s.out := by
  unfold check; dsimp only; split <;> rfl
@[simp] theorem check_num (s : State) : (check s).2.num = s.num := by
  unfold check; dsimp only; split <;> rfl
@[simp] theorem check_big (s : State) : (check s).2.big = s.big := by
  unfold check; dsimp only; split <;> rfl
@[simp] theorem check_small (s : State) : (check s).2.small = s.small := by
  unfold check; dsimp only; split <;> rfl
@[simp] theorem check_node (s : State) : (check s).2.node = s.node := by
  unfold check; dsimp only; split <;> rfl
@[simp] theorem check_value (s : State) : (check s).2.value = s.value := by
  unfold check; dsimp only; split <;> rfl
@[simp] theorem check_nCheck (s : State) : (check s).2.nCheck = s.nCheck + 1 := by
  unfold check; dsimp only; split <;> rfl
@[simp] theorem check_nApply (s : State) : (check s).2.nApply = s.nApply := by
  unfold check; dsimp only; split <;> rfl

theorem check_synced (base pos : Nat) (s : State) (h : Synced base pos s) :
    (check s).1 = bitAt s.mem base pos ∧ Synced base (pos + 1) (check s).2 := by
  unfold Synced at h ⊢
  unfold bitAt
  by_cases hc : pos % 8 < 7
  · have h1 : (pos + 1) / 8 = pos / 8 := by omega
    have h2 : (pos + 1) % 8 = pos % 8 + 1 := by omega
    rw [h1, h2]
    exact check_sync_lt base (pos / 8) (pos % 8) s hc h
  · have h0 : pos % 8 = 7 := by omega
    have h1 : (pos + 1) / 8 = pos / 8 + 1 := by omega
    have h2 : (pos + 1) % 8 = 0 := by omega
    rw [h1, h2, h0]
    rw [h0] at h
    have := check_sync_7 base (pos / 8) s h
    simpa using this

theorem checkN_synced (base : Nat) (n : Nat) : ∀ (pos : Nat) (s : State), Synced base pos s →
    (checkN n s).1 = (List.range n).map (fun j => bitAt s.mem base (pos + j)) ∧
    Synced base (pos + n) (checkN n s).2 := by
  induction n with
  | zero => intro pos s h; exact ⟨rfl, h⟩
  | succ n ih =>
    intro pos s h
    obtain ⟨hb, hs⟩ := check_synced base pos s h
    obtain ⟨h1, h2⟩ := ih (pos + 1) (check s).2 hs
    refine ⟨?_, ?_⟩
    · show (check s).1 :: (checkN n (check s).2).1 = _
      rw [h1, hb, List.range_succ_eq_map, List.map_cons, List.map_map]
      simp [Function.comp_def, Nat.add_assoc, Nat.add_comm 1]
    · show Synced base (pos + (n + 1)) (checkN n (check s).2).2
      rw [show pos + (n + 1) = pos + 1 + n by omega]
      exact h2

theorem synced_value (base pos : Nat) (s : State) (v : Nat) :
    Synced base pos { s with value := v } ↔ Synced base pos s := Iff.rfl

theorem apply_synced (base pos : Nat) (s : State) (h : Synced base pos s) :
    Synced base (pos + 8) (apply s) := by
  have hc : s.cnt < 8 := by rw [h.1]; exact Nat.mod_lt _ (by decide)
  have h2 := (checkN_synced base 8 pos s h).2
  rw [apply_checks_state s hc] at h2
  exact h2

theorem byte_bits (v : Nat) (hv : v < 256) :
    2 * (2 * (2 * (2 * (2 * (2 * (2 * (v / 128 % 2) + v / 64 % 2) + v / 32 % 2)
      + v / 16 % 2) + v / 8 % 2) + v / 4 % 2) + v / 2 % 2) + v % 2 = v := by
  have := bits8 (v * 256)
  rw [show v * 256 / 32768 = v / 128 by omega, show v * 256 / 16384 = v / 64 by omega,
    show v * 256 / 8192 = v / 32 by omega, show v * 256 / 4096 = v / 16 by omega,
    show v * 256 / 2048 = v / 8 by omega, show v * 256 / 1024 = v / 4 by omega,
    show v * 256 / 512 = v / 2 by omega, show v * 256 / 256 = v by omega,
    Nat.mod_eq_of_lt hv] at this
  exact this

theorem ite_bit (x : Nat) : (if x % 2 = 1 then 1 else 0) = x % 2 := by
  split <;> omega

theorem apply_value (base pos : Nat) (s : State) (v : Nat) (hv : v < 256)
    (h : Synced base pos s) (hb : HasBits s.mem base pos (byteBits v)) :
    (apply s).value = v := by
  have hc : s.cnt < 8 := by rw [h.1]; exact Nat.mod_lt _ (by decide)
  rw [← apply_checks_bits s hc, (checkN_synced base 8 pos s h).1]
  simp only [HasBits, byteBits, decide_eq_true_eq, ite_bit] at hb
  obtain ⟨b0, b1, b2, b3, b4, b5, b6, b7, -⟩ := hb
  simp only [Nat.add_assoc, Nat.reduceAdd] at b1 b2 b3 b4 b5 b6 b7
  simp only [List.range, List.range.loop, List.map, bitsVal, List.foldl, Nat.add_zero,
    b0, b1, b2, b3, b4, b5, b6, b7, Nat.mul_zero, Nat.zero_add]
  exact byte_bits v hv

/-! ## The tree builder -/

@[simp] theorem apply_mem (s : State) : (apply s).mem = s.mem := rfl
@[simp] theorem apply_out (s : State) : (apply s).out = s.out := rfl
@[simp] theorem apply_num (s : State) : (apply s).num = s.num := rfl
@[simp] theorem apply_big (s : State) : (apply s).big = s.big := rfl
@[simp] theorem apply_small (s : State) : (apply s).small = s.small := rfl
@[simp] theorem apply_node (s : State) : (apply s).node = s.node := rfl
@[simp] theorem apply_nCheck (s : State) : (apply s).nCheck = s.nCheck := rfl
@[simp] theorem apply_nApply (s : State) : (apply s).nApply = s.nApply + 1 := rfl

theorem hasBits_append (mem : Nat → Nat) (base : Nat) (l1 l2 : List Bool) :
    ∀ pos, HasBits mem base pos (l1 ++ l2) ↔
      HasBits mem base pos l1 ∧ HasBits mem base (pos + l1.length) l2 := by
  induction l1 with
  | nil => intro pos; simp [HasBits]
  | cons b bs ih =>
    intro pos
    have e : pos + (bs.length + 1) = pos + 1 + bs.length := by omega
    show _ ∧ HasBits mem base (pos + 1) (bs ++ l2) ↔ (_ ∧ _) ∧ HasBits mem base (pos + (bs.length + 1)) l2
    rw [ih (pos + 1), e, and_assoc]

theorem Tree.depth_le (t : Tree) : t.depth ≤ t.internal + 1 := by
  induction t with
  | leaf b => simp [Tree.depth, Tree.internal]
  | node l r ihl ihr => simp only [Tree.depth, Tree.internal]; omega

theorem Tree.leaves_eq (t : Tree) : t.leaves = t.internal + 1 := by
  induction t with
  | leaf b => rfl
  | node l r ihl ihr => simp only [Tree.leaves, Tree.internal]; omega

theorem Tree.bits_length (t : Tree) : t.bits.length = (2 * t.internal + 1) + 8 * t.leaves := by
  induction t with
  | leaf b => rfl
  | node l r ihl ihr =>
    simp only [Tree.bits, Tree.internal, Tree.leaves, List.length_cons, List.length_append, ihl, ihr]
    omega

theorem rep_congr (big small big2 small2 : Nat → Nat) :
    ∀ (t : Tree) (lo v : Nat),
      (∀ j, 2 * lo < j → j ≤ 2 * (lo + t.internal) → big2 j = big j ∧ small2 j = small j) →
      Rep big small t lo v → Rep big2 small2 t lo v := by
  intro t
  induction t with
  | leaf b => intro lo v _ h; exact h
  | node l r ihl ihr =>
    intro lo v hf h
    obtain ⟨h1, h2, h3⟩ := h
    simp only [Tree.internal] at hf
    have e := hf (2 * (lo + 1)) (by omega) (by omega)
    refine ⟨h1, ?_, ?_⟩
    · rw [e.1]
      exact ihl (lo + 1) _ (fun j a b => hf j (by omega) (by omega)) h2
    · rw [e.2]
      exact ihr (lo + 1 + l.internal) _ (fun j a b => hf j (by omega) (by omega)) h3

theorem build_table_leaf (fuel : Nat) (s : State) (h : (check s).1 = 0) :
    build_table (fuel + 1) s = some (0, apply (check s).2) := by
  simp only [build_table, h, ne_eq, not_true_eq_false, if_false]

theorem build_table_full (fuel : Nat) (s : State) (h : (check s).1 ≠ 0) (h2 : 511 ≤ (s.node + 1) % 65536) :
    build_table (fuel + 1) s = some (1, { (check s).2 with node := (s.node + 1) % 65536 }) := by
  simp only [build_table, h, ne_eq, not_false_eq_true, if_true, check_node, if_neg (Nat.not_lt.2 h2)]

theorem build_table_node (fuel : Nat) (s : State) (h : (check s).1 ≠ 0) (h2 : (s.node + 1) % 65536 < 511) :
    build_table (fuel + 1) s =
      match build_table fuel { (check s).2 with node := (s.node + 1) % 65536 } with
      | none => none
      | some (result, s3) =>
        if result = 0 then
          match build_table fuel
            { s3 with big := store s3.big (2 * ((s.node + 1) % 65536) % 65536) s3.value } with
          | none => none
          | some (result2, s5) =>
            if result2 = 0 then
              some (0, { s5 with small := store s5.small (2 * ((s.node + 1) % 65536) % 65536) s5.value,
                                 value := 2 * ((s.node + 1) % 65536) % 65536 / 2 })
            else some (result2, s5)
        else some (result, s3) := by
  simp only [build_table, h, ne_eq, not_false_eq_true, if_true, check_node, if_pos h2]

theorem synced_node (base pos : Nat) (s : State) (v : Nat) :
    Synced base pos { s with node := v } ↔ Synced base pos s := Iff.rfl

theorem synced_big (base pos : Nat) (s : State) (f : Nat → Nat) :
    Synced base pos { s with big := f } ↔ Synced base pos s := Iff.rfl

/-- On a serialized tree that fits the node counter, `build_table` succeeds,
leaves the reader right after the tree, and the tables hold the tree. -/
theorem build_ok (base : Nat) : ∀ (t : Tree) (fuel pos : Nat) (s : State),
    Synced base pos s → HasBits s.mem base pos t.bits → s.node + t.internal ≤ 510 →
    t.depth ≤ fuel →
    ∃ s2, build_table fuel s = some (0, s2) ∧ Synced base (pos + t.bits.length) s2 ∧
      s2.node = s.node + t.internal ∧ s2.mem = s.mem ∧ s2.out = s.out ∧ s2.num = s.num ∧
      s2.nCheck = s.nCheck + (2 * t.internal + 1) ∧ s2.nApply = s.nApply + t.leaves ∧
      Rep s2.big s2.small t s.node s2.value ∧
      (∀ j, (j ≤ 2 * s.node ∨ 2 * (s.node + t.internal) < j) →
        s2.big j = s.big j ∧ s2.small j = s.small j) := by
  intro t
  induction t with
  | leaf b =>
    intro fuel pos s hs hb _ hf
    obtain ⟨fuel, rfl⟩ : ∃ f, fuel = f + 1 := ⟨fuel - 1, by simp [Tree.depth] at hf; omega⟩
    obtain ⟨hb0, hb1⟩ := hb
    obtain ⟨hc, hs1⟩ := check_synced base pos s hs
    have h0 : (check s).1 = 0 := by rw [hc, hb0]; rfl
    refine ⟨apply (check s).2, build_table_leaf fuel s h0, ?_, ?_, ?_, ?_, ?_, ?_, ?_, ?_, ?_⟩
    · have := apply_synced base (pos + 1) _ hs1
      simpa [Tree.bits, byteBits, Nat.add_assoc] using this
    · simp [Tree.internal]
    · simp
    · simp
    · simp
    · simp [Tree.internal]
    · simp [Tree.leaves]
    · exact apply_value base (pos + 1) _ b.val b.isLt hs1 (by simpa using hb1)
    · intro j _; simp
  | node l r ihl ihr =>
    intro fuel pos s hs hb hn hf
    obtain ⟨fuel, rfl⟩ : ∃ f, fuel = f + 1 := ⟨fuel - 1, by simp [Tree.depth] at hf; omega⟩
    simp only [Tree.internal] at hn
    simp only [Tree.depth] at hf
    obtain ⟨hb0, hb1⟩ := hb
    obtain ⟨hbl, hbr⟩ := (hasBits_append _ _ _ _ _).1 hb1
    obtain ⟨hc, hs1⟩ := check_synced base pos s hs
    have h0 : (check s).1 ≠ 0 := by rw [hc, hb0]; decide
    have hm : (s.node + 1) % 65536 = s.node + 1 := by omega
    have hi : 2 * (s.node + 1) % 65536 = 2 * (s.node + 1) := by omega
    rw [build_table_node fuel s h0 (by omega), hm, hi]
    obtain ⟨s3, e3, hs3, hn3, hm3, ho3, hu3, hk3, ha3, hr3, hf3⟩ :=
      ihl fuel (pos + 1) { (check s).2 with node := s.node + 1 } hs1
        (by simpa using hbl) (by simp; omega) (by omega)
    simp only [check_mem, check_out, check_num, check_big, check_small, check_nCheck,
      check_nApply] at hn3 hm3 ho3 hu3 hk3 ha3 hr3 hf3
    rw [e3]
    simp only [if_true]
    obtain ⟨s5, e5, hs5, hn5, hm5, ho5, hu5, hk5, ha5, hr5, hf5⟩ :=
      ihr fuel (pos + 1 + l.bits.length)
        { s3 with big := store s3.big (2 * (s.node + 1)) s3.value } hs3
        (by simpa [hm3] using hbr) (by simp [hn3]; omega) (by omega)
    simp only [hn3, hm3, ho3, hu3, hk3, ha3] at hn5 hm5 ho5 hu5 hk5 ha5 hr5 hf5
    rw [e5]
    simp only [if_true]
    refine ⟨_, rfl, ?_, ?_, hm5, ho5, hu5, ?_, ?_, ?_, ?_⟩
    · have : pos + (Tree.node l r).bits.length = pos + 1 + l.bits.length + r.bits.length := by
        simp [Tree.bits]; omega
      rw [this]; exact hs5
    · simp only [hn5, Tree.internal]; omega
    · simp only [hk5, Tree.internal]; omega
    · simp only [ha5, Tree.leaves]; omega
    · have hb5 := (hf5 (2 * (s.node + 1)) (Or.inl (by omega)))
      refine ⟨by simp, ?_, ?_⟩
      · show Rep s5.big (store s5.small _ _) l (s.node + 1) (s5.big (2 * (s.node + 1)))
        rw [hb5.1]
        have e : store s3.big (2 * (s.node + 1)) s3.value (2 * (s.node + 1)) = s3.value := by
          simp [store]
        rw [e]
        refine rep_congr _ _ _ _ l _ _ ?_ hr3
        intro j hj1 hj2
        have := hf5 j (Or.inl (by omega))
        simp only [store] at this ⊢
        rw [this.1, this.2, if_neg (by omega), if_neg (by omega)]
        exact ⟨rfl, rfl⟩
      · show Rep s5.big (store s5.small _ _) r (s.node + 1 + l.internal)
          (store s5.small (2 * (s.node + 1)) s5.value (2 * (s.node + 1)))
        have e : store s5.small (2 * (s.node + 1)) s5.value (2 * (s.node + 1)) = s5.value := by
          simp [store]
        rw [e]
        refine rep_congr _ _ _ _ r _ _ ?_ hr5
        intro j hj1 hj2
        simp only [store]
        rw [if_neg (by omega)]
        simp
    · intro j hj
      simp only [Tree.internal] at hj
      have h5 := hf5 j (by omega)
      have h3 := hf3 j (by omega)
      simp only [store, check_big, check_small] at h5 h3 ⊢
      rw [if_neg (by omega)] at h5
      rw [if_neg (by omega), h5.1, h5.2, h3.1, h3.2]
      exact ⟨rfl, rfl⟩

/-- On a serialized tree with more internal nodes than the node counter
allows, `build_table` returns 1 with the counter at 511 and stores nothing. -/
theorem build_fail (base : Nat) : ∀ (t : Tree) (fuel pos : Nat) (s : State),
    Synced base pos s → HasBits s.mem base pos t.bits → s.node ≤ 510 →
    511 ≤ s.node + t.internal → 511 - s.node ≤ fuel →
    ∃ s2, build_table fuel s = some (1, s2) ∧ s2.node = 511 ∧ s2.out = s.out ∧
      s2.num = s.num ∧ s2.mem = s.mem := by
  intro t
  induction t with
  | leaf b => intro fuel pos s _ _ h1 h2 _; simp [Tree.internal] at h2; omega
  | node l r ihl ihr =>
    intro fuel pos s hs hb hn hk hf
    obtain ⟨fuel, rfl⟩ : ∃ f, fuel = f + 1 := ⟨fuel - 1, by omega⟩
    simp only [Tree.internal] at hk
    obtain ⟨hb0, hb1⟩ := hb
    obtain ⟨hbl, hbr⟩ := (hasBits_append _ _ _ _ _).1 hb1
    obtain ⟨hc, hs1⟩ := check_synced base pos s hs
    have h0 : (check s).1 ≠ 0 := by rw [hc, hb0]; decide
    have hm : (s.node + 1) % 65536 = s.node + 1 := by omega
    by_cases h510 : s.node = 510
    · rw [build_table_full fuel s h0 (by omega), hm]
      exact ⟨_, rfl, by simp [h510], by simp, by simp, by simp⟩
    have hi : 2 * (s.node + 1) % 65536 = 2 * (s.node + 1) := by omega
    rw [build_table_node fuel s h0 (by omega), hm, hi]
    by_cases hl : 511 ≤ s.node + 1 + l.internal
    · obtain ⟨s3, e3, hn3, ho3, hu3, hm3⟩ :=
        ihl fuel (pos + 1) { (check s).2 with node := s.node + 1 } hs1
          (by simpa using hbl) (by dsimp only; omega) (by dsimp only; omega) (by dsimp only; omega)
      rw [e3]
      simp only [Nat.succ_ne_zero, if_false]
      exact ⟨s3, rfl, hn3, by simpa using ho3, by simpa using hu3, by simpa using hm3⟩
    · have hd := Tree.depth_le l
      obtain ⟨s3, e3, hs3, hn3, hm3, ho3, hu3, -, -, -, -⟩ :=
        build_ok base l fuel (pos + 1) { (check s).2 with node := s.node + 1 } hs1
          (by simpa using hbl) (by dsimp only; omega) (by omega)
      simp only [check_mem, check_out, check_num] at hn3 hm3 ho3 hu3
      rw [e3]
      simp only [if_true]
      obtain ⟨s5, e5, hn5, ho5, hu5, hm5⟩ :=
        ihr fuel (pos + 1 + l.bits.length)
          { s3 with big := store s3.big (2 * (s.node + 1)) s3.value } hs3
          (by simpa [hm3] using hbr) (by dsimp only; omega) (by dsimp only; omega)
          (by dsimp only; omega)
      rw [e5]
      simp only [Nat.succ_ne_zero, if_false]
      exact ⟨s5, rfl, hn5, by rw [ho5]; exact ho3, by rw [hu5]; exact hu3,
        by rw [hm5]; exact hm3⟩

/-! ## The symbol walk -/

theorem rep_le (big small : Nat → Nat) (t : Tree) (lo v : Nat)
    (h : Rep big small t lo v) (hn : lo + t.internal ≤ 510) : v ≤ 510 := by
  cases t with
  | leaf b => have := b.isLt; simp only [Rep] at h; omega
  | node l r => simp only [Rep, Tree.internal] at h hn; omega

theorem walk_leaf (fuel : Nat) (s : State) (h : s.value < 256) : walk fuel s = some s := by
  have h2 : ¬ s.value ≥ 0x100 := by omega
  cases fuel <;> simp only [walk, if_neg h2]

theorem walk_node (fuel : Nat) (s : State) (h : 256 ≤ s.value) :
    walk (fuel + 1) s =
      if (check s).1 ≠ 0 then
        walk fuel { (check s).2 with value := s.small (s.value * 2 % 65536) % 65536 }
      else walk fuel { (check s).2 with value := s.big (s.value * 2 % 65536) % 65536 } := by
  have h2 : s.value ≥ 0x100 := h
  simp only [walk, if_pos h2, check_small, check_big]

/-- On tables holding a tree, the inner loop of `decode_block` follows the
reference decoder: it stops at the leaf that `decode1` reaches and consumes
the same bits. -/
theorem walk_ok (base : Nat) : ∀ (t : Tree) (lo fuel pos : Nat) (bs : List Bool) (s : State)
    (b : Nat) (rest : List Bool),
    Rep s.big s.small t lo s.value → 255 ≤ lo → lo + t.internal ≤ 510 →
    Synced base pos s → HasBits s.mem base pos bs → t.decode1 bs = some (b, rest) →
    t.depth ≤ fuel + 1 →
    ∃ s2, walk fuel s = some s2 ∧ s2.value = b ∧ rest.length ≤ bs.length ∧
      Synced base (pos + (bs.length - rest.length)) s2 ∧
      HasBits s.mem base (pos + (bs.length - rest.length)) rest ∧
      s2.mem = s.mem ∧ s2.out = s.out ∧ s2.num = s.num ∧ s2.big = s.big ∧
      s2.small = s.small ∧ s2.node = s.node ∧ s2.nApply = s.nApply := by
  intro t
  induction t with
  | leaf c =>
    intro lo fuel pos bs s b rest hr _ _ hs hb hd _
    simp only [Tree.decode1, Option.some.injEq, Prod.mk.injEq] at hd
    obtain ⟨rfl, rfl⟩ := hd
    simp only [Rep] at hr
    refine ⟨s, walk_leaf fuel s (by have := c.isLt; omega), hr, Nat.le_refl _, ?_, ?_,
      rfl, rfl, rfl, rfl, rfl, rfl, rfl⟩
    · simpa using hs
    · simpa using hb
  | node l r ihl ihr =>
    intro lo fuel pos bs s b rest hr hlo hn hs hb hd hf
    obtain ⟨hv, hrl, hrr⟩ := hr
    simp only [Tree.internal] at hn
    simp only [Tree.depth] at hf
    have hd1 : 1 ≤ l.depth := by cases l <;> simp [Tree.depth]
    have hmax : l.depth ≤ fuel ∧ r.depth ≤ fuel := by
      have := Nat.le_max_left l.depth r.depth
      have := Nat.le_max_right l.depth r.depth
      omega
    obtain ⟨fuel, rfl⟩ : ∃ f, fuel = f + 1 := ⟨fuel - 1, by omega⟩
    cases bs with
    | nil => simp [Tree.decode1] at hd
    | cons b0 bs =>
      obtain ⟨hb0, hb1⟩ := hb
      obtain ⟨hc, hs1⟩ := check_synced base pos s hs
      have hi : s.value * 2 % 65536 = 2 * (lo + 1) := by omega
      rw [walk_node fuel s (by omega), hi, hc, hb0]
      cases b0 with
      | true =>
        simp only [Tree.decode1, if_true] at hd
        have hle := rep_le _ _ r _ _ hrr (by omega)
        have hmod : s.small (2 * (lo + 1)) % 65536 = s.small (2 * (lo + 1)) := by omega
        rw [hmod]
        obtain ⟨s2, e, hv2, hl2, hs2, hb2, h1, h2, h3, h4, h5, h6, h7⟩ :=
          ihr (lo + 1 + l.internal) fuel (pos + 1) bs
            { (check s).2 with value := s.small (2 * (lo + 1)) } b rest
            (by simpa using hrr) (by omega) (by omega) hs1 (by simpa using hb1) hd (by omega)
        simp only [check_mem, check_out, check_num, check_big, check_small, check_node,
          check_nApply] at h1 h2 h3 h4 h5 h6 h7 hb2
        have e2 : pos + ((true :: bs).length - rest.length) = pos + 1 + (bs.length - rest.length) := by
          simp only [List.length_cons]; omega
        rw [e2]
        exact ⟨s2, by simpa using e, hv2, by simp only [List.length_cons]; omega, hs2, hb2,
          h1, h2, h3, h4, h5, h6, h7⟩
      | false =>
        simp only [Tree.decode1, Bool.false_eq_true, if_false] at hd
        have hle := rep_le _ _ l _ _ hrl (by omega)
        have hmod : s.big (2 * (lo + 1)) % 65536 = s.big (2 * (lo + 1)) := by omega
        rw [hmod]
        obtain ⟨s2, e, hv2, hl2, hs2, hb2, h1, h2, h3, h4, h5, h6, h7⟩ :=
          ihl (lo + 1) fuel (pos + 1) bs
            { (check s).2 with value := s.big (2 * (lo + 1)) } b rest
            (by simpa using hrl) (by omega) (by omega) hs1 (by simpa using hb1) hd (by omega)
        simp only [check_mem, check_out, check_num, check_big, check_small, check_node,
          check_nApply] at h1 h2 h3 h4 h5 h6 h7 hb2
        have e2 : pos + ((false :: bs).length - rest.length) = pos + 1 + (bs.length - rest.length) := by
          simp only [List.length_cons]; omega
        rw [e2]
        exact ⟨s2, by simpa using e, hv2, by simp only [List.length_cons]; omega, hs2, hb2,
          h1, h2, h3, h4, h5, h6, h7⟩

theorem Tree.decode1_lt (t : Tree) : ∀ (bs : List Bool) (b : Nat) (rest : List Bool),
    t.decode1 bs = some (b, rest) → b < 256 := by
  induction t with
  | leaf c =>
    intro bs b rest h
    simp only [Tree.decode1, Option.some.injEq, Prod.mk.injEq] at h
    rw [← h.1]; exact c.isLt
  | node l r ihl ihr =>
    intro bs b rest h
    cases bs with
    | nil => simp [Tree.decode1] at h
    | cons b0 bs =>
      cases b0 with
      | true => simp only [Tree.decode1, if_true] at h; exact ihr _ _ _ h
      | false => simp only [Tree.decode1, Bool.false_eq_true, if_false] at h; exact ihl _ _ _ h

theorem Tree.decode_length (t : Tree) : ∀ (n : Nat) (bs : List Bool) (outs : List Nat)
    (rest : List Bool), t.decode n bs = some (outs, rest) → outs.length = n := by
  intro n
  induction n with
  | zero =>
    intro bs outs rest h
    simp only [Tree.decode, Option.some.injEq, Prod.mk.injEq] at h
    rw [← h.1]; rfl
  | succ n ih =>
    intro bs outs rest h
    simp only [Tree.decode] at h
    split at h
    · exact absurd h (by simp)
    · rename_i b r1 _
      split at h
      · exact absurd h (by simp)
      · rename_i o r2 e2
        simp only [Option.some.injEq, Prod.mk.injEq] at h
        rw [← h.1, List.length_cons, ih _ _ _ e2]

/-- One pass of the symbol loop emits the byte the reference decoder reads. -/
theorem emit_ok (base : Nat) (t : Tree) (lo root pos : Nat) (bs : List Bool) (s : State)
    (b : Nat) (rest : List Bool)
    (hr : Rep s.big s.small t lo root) (hlo : 255 ≤ lo) (hn : lo + t.internal ≤ 510)
    (hs : Synced base pos s) (hb : HasBits s.mem base pos bs)
    (hd : t.decode1 bs = some (b, rest)) :
    ∃ s2, emit root s = some s2 ∧ s2.out = s.out ++ [b] ∧ s2.num = s.num + 1 ∧
      rest.length ≤ bs.length ∧
      Synced base (pos + (bs.length - rest.length)) s2 ∧
      HasBits s.mem base (pos + (bs.length - rest.length)) rest ∧
      s2.mem = s.mem ∧ s2.big = s.big ∧ s2.small = s.small ∧ s2.node = s.node ∧
      s2.nApply = s.nApply := by
  have hdep := Tree.depth_le t
  obtain ⟨s2, e, hv, hl, hs2, hb2, h1, h2, h3, h4, h5, h6, h7⟩ :=
    walk_ok base t lo 256 pos bs { s with value := root } b rest hr hlo hn hs hb hd (by omega)
  have hlt := Tree.decode1_lt t bs b rest hd
  refine ⟨{ s2 with out := s2.out ++ [s2.value % 256], num := s2.num + 1 }, ?_, ?_, ?_, hl,
    hs2, hb2, h1, h4, h5, h6, h7⟩
  · simp only [emit, e]
  · show s2.out ++ [s2.value % 256] = _
    rw [h2, hv, Nat.mod_eq_of_lt hlt]
  · show s2.num + 1 = _
    rw [h3]

/-- The symbol loop run for `k + 1` passes emits the `k + 1` bytes the
reference decoder reads. -/
theorem emitLoop_ok (base : Nat) (t : Tree) (lo root : Nat) (hlo : 255 ≤ lo)
    (hn : lo + t.internal ≤ 510) :
    ∀ (k pos : Nat) (bs : List Bool) (s : State) (outs : List Nat) (rest : List Bool),
    Rep s.big s.small t lo root → Synced base pos s → HasBits s.mem base pos bs →
    t.decode (k + 1) bs = some (outs, rest) →
    ∃ s2, emitLoop root k s = some s2 ∧ s2.out = s.out ++ outs ∧ s2.num = s.num + (k + 1) ∧
      rest.length ≤ bs.length ∧
      Synced base (pos + (bs.length - rest.length)) s2 ∧ s2.mem = s.mem ∧
      s2.nApply = s.nApply := by
  intro k
  induction k with
  | zero =>
    intro pos bs s outs rest hr hs hb hd
    simp only [Tree.decode] at hd
    split at hd
    · exact absurd hd (by simp)
    · rename_i b r1 e1
      simp only [Option.some.injEq, Prod.mk.injEq] at hd
      obtain ⟨rfl, rfl⟩ := hd
      obtain ⟨s2, e, h1, h2, h3, h4, -, h6, -, -, -, h7⟩ :=
        emit_ok base t lo root pos bs s b r1 hr hlo hn hs hb e1
      exact ⟨s2, by simpa [emitLoop] using e, h1, h2, h3, h4, h6, h7⟩
  | succ k ih =>
    intro pos bs s outs rest hr hs hb hd
    rw [Tree.decode] at hd
    split at hd
    · exact absurd hd (by simp)
    · rename_i b r1 e1
      split at hd
      · exact absurd hd (by simp)
      · rename_i o r2 e2
        simp only [Option.some.injEq, Prod.mk.injEq] at hd
        obtain ⟨rfl, rfl⟩ := hd
        obtain ⟨s1, e, h1, h2, h3, h4, h5, h6, hB, hS, -, h7⟩ :=
          emit_ok base t lo root pos bs s b r1 hr hlo hn hs hb e1
        obtain ⟨s2, e', g1, g2, g3, g4, g6, g7⟩ :=
          ih (pos + (bs.length - r1.length)) r1 s1 o r2 (by rw [hB, hS]; exact hr) h4
            (by rw [h6]; exact h5) e2
        refine ⟨s2, ?_, ?_, ?_, by omega, ?_, by rw [g6, h6], by rw [g7, h7]⟩
        · simp only [emitLoop, e, e']
        · rw [g1, h1]; simp
        · rw [g2, h2]; omega
        · rw [show pos + (bs.length - r2.length)
              = pos + (bs.length - r1.length) + (r1.length - r2.length) by omega]
          exact g4

/-! ## The block decoder -/

theorem stored_i_eq (mem : Nat → Nat) (p : Nat) :
    load mem (p + 2) + load mem (p + 1) * 256
      + load mem p * 65536 % 4294967296 / 65536 % 256 * 65536
      + load mem p * 65536 % 4294967296 / 16777216 % 256 * 16777216 = count24 mem p := by
  have h0 := load_lt mem p
  unfold count24
  omega

/-- The state in which `decode_block` enters `build_table`. -/
theorem seed_synced (s : State) : Synced (s.cur + 3) 0 (seed s) := by
  have h0 := load_lt s.mem (s.cur + 3)
  have h1 := load_lt s.mem (s.cur + 4)
  refine ⟨rfl, rfl, ?_⟩
  show load s.mem (s.cur + 3) * 256 + load s.mem (s.cur + 4)
    = (load s.mem (s.cur + 3 + 0 / 8) * 256 + load s.mem (s.cur + 3 + 0 / 8 + 1))
      * 2 ^ (0 % 8) % 65536
  simp only [Nat.zero_div, Nat.zero_mod, Nat.add_zero, Nat.pow_zero, Nat.mul_one]
  rw [show s.cur + 3 + 1 = s.cur + 4 by omega]
  omega

/-- The body of `decode_block` with the number of further loop passes named `k`. -/
theorem decode_block_eq (s : State) (k : Nat)
    (hk : (count24 s.mem s.cur + 4294967295) % 4294967296 = k) :
    decode_block s =
      match build_table 256 (seed s) with
      | none => none
      | some (result, s1) =>
        if result = 0 then
          match emitLoop s1.value k s1 with
          | none => none
          | some s2 =>
            if s2.cnt = 0 then some (0, { s2 with cur := s2.cur - 1 - 1 })
            else some (0, { s2 with cur := s2.cur - 1 })
        else some (result, s1) := by
  rw [decode_block, stored_i_eq, hk]

/-- A block whose tree has at most 255 internal nodes is decoded as the
reference decoder does, for the `k + 1` passes the symbol loop makes. -/
theorem decode_block_run (s : State) (t : Tree) (sym : List Bool) (outs : List Nat)
    (rest : List Bool) (k : Nat) (ht : t.internal ≤ 255)
    (hk : (count24 s.mem s.cur + 4294967295) % 4294967296 = k)
    (hb : HasBits s.mem (s.cur + 3) 0 (t.bits ++ sym))
    (hd : t.decode (k + 1) sym = some (outs, rest)) :
    ∃ s2, decode_block s = some (0, s2) ∧ s2.out = s.out ++ outs ∧
      s2.num = s.num + (k + 1) ∧
      s2.cur = s.cur + 3 + (t.bits.length + (sym.length - rest.length) + 7) / 8 ∧
      s2.mem = s.mem ∧ s2.nApply = s.nApply + t.leaves := by
  obtain ⟨hbt, hbs⟩ := (hasBits_append _ _ _ _ _).1 hb
  have hdep := Tree.depth_le t
  obtain ⟨s1, e1, hs1, hn1, hm1, ho1, hu1, -, ha1, hr1, -⟩ :=
    build_ok (s.cur + 3) t 256 0 _ (seed_synced s) hbt (by simp only [seed]; omega) (by omega)
  simp only [seed] at hn1 hm1 ho1 hu1 ha1 hr1
  obtain ⟨s2, e2, h1, h2, h3, h4, h5, h6⟩ :=
    emitLoop_ok (s.cur + 3) t 255 s1.value (Nat.le_refl _) (by omega)
      k (0 + t.bits.length) sym s1 outs rest
      hr1 hs1 (by rw [hm1]; exact hbs) hd
  rw [decode_block_eq s k hk, e1]
  simp only [if_true, e2]
  obtain ⟨hc, hcur, -⟩ := h4
  have hB : 0 + t.bits.length + (sym.length - rest.length)
      = t.bits.length + (sym.length - rest.length) := by omega
  rw [hB] at hc hcur
  generalize t.bits.length + (sym.length - rest.length) = B at hc hcur ⊢
  by_cases h0 : s2.cnt = 0
  · rw [if_pos h0]
    refine ⟨_, rfl, by rw [← ho1, ← h1], by rw [← hu1, ← h2], ?_, by rw [← hm1, ← h5],
      by rw [← ha1, ← h6]⟩
    show s2.cur - 1 - 1 = _
    rw [hc] at h0
    omega
  · rw [if_neg h0]
    refine ⟨_, rfl, by rw [← ho1, ← h1], by rw [← hu1, ← h2], ?_, by rw [← hm1, ← h5],
      by rw [← ha1, ← h6]⟩
    show s2.cur - 1 = _
    rw [hc] at h0
    omega

theorem count24_lt (mem : Nat → Nat) (p : Nat) : count24 mem p < 16777216 := by
  have h0 := load_lt mem p
  have h1 := load_lt mem (p + 1)
  have h2 := load_lt mem (p + 2)
  unfold count24
  omega

/-- The reference decoder on the minimal tree reads one bit per symbol. -/
theorem decode_minimal (a b : Fin 256) : ∀ (n : Nat) (sym : List Bool), n ≤ sym.length →
    (Tree.node (Tree.leaf a) (Tree.leaf b)).decode n sym
      = some ((sym.take n).map (fun bit => if bit then b.val else a.val), sym.drop n) := by
  intro n
  induction n with
  | zero => intro sym _; simp [Tree.decode]
  | succ n ih =>
    intro sym h
    cases sym with
    | nil => simp at h
    | cons c cs =>
      simp only [List.length_cons, Nat.add_le_add_iff_right] at h
      cases c <;> simp [Tree.decode, Tree.decode1, ih cs h]

/-- C1: for every block with count N >= 1 whose serialized tree is accepted by
`build_table` (at most 255 internal nodes) and is followed in the same bitstream
by the symbol bits, `decode_block` succeeds and emits exactly N bytes, which are
the reference prefix-code decoding of the symbol bits (1 bit: 1-child, 0 bit:
0-child); for the minimal tree with 0-leaf `a` and 1-leaf `b` the j-th byte is
`b` if the j-th symbol bit is 1 and `a` otherwise. -/
theorem decode_block_decodes (s : State) (t : Tree) (sym : List Bool) (outs : List Nat)
    (rest : List Bool) (hN : 1 ≤ count24 s.mem s.cur) (ht : t.internal ≤ 255)
    (hb : HasBits s.mem (s.cur + 3) 0 (t.bits ++ sym))
    (hd : t.decode (count24 s.mem s.cur) sym = some (outs, rest)) :
    (∃ s2, decode_block s = some (0, s2) ∧ s2.out = s.out ++ outs ∧
      outs.length = count24 s.mem s.cur ∧ s2.num = s.num + count24 s.mem s.cur) ∧
    (∀ a b : Fin 256, t = Tree.node (Tree.leaf a) (Tree.leaf b) →
      count24 s.mem s.cur ≤ sym.length →
      outs = (sym.take (count24 s.mem s.cur)).map (fun bit => if bit then b.val else a.val)) := by
  have hlt := count24_lt s.mem s.cur
  have hlen := Tree.decode_length t _ _ _ _ hd
  generalize hNe : count24 s.mem s.cur = N at hN hd hlt hlen ⊢
  obtain ⟨k, rfl⟩ : ∃ k, N = k + 1 := ⟨N - 1, by omega⟩
  have hk : (count24 s.mem s.cur + 4294967295) % 4294967296 = k := by rw [hNe]; omega
  obtain ⟨s2, e, h1, h2, -, -, -⟩ := decode_block_run s t sym outs rest k ht hk hb hd
  refine ⟨⟨s2, e, h1, hlen, h2⟩, ?_⟩
  intro a b ht2 hl
  subst ht2
  rw [decode_minimal a b (k + 1) sym hl] at hd
  simp only [Option.some.injEq, Prod.mk.injEq] at hd
  exact hd.1.symm

theorem decode_block_decodes_witness :
    (∃ s2, decode_block (initState (memOf [0, 0, 4, 0x90, 0x48, 0x54]) 0) = some (0, s2) ∧
      s2.out = [] ++ [0x42, 0x41, 0x42, 0x41] ∧
      [0x42, 0x41, 0x42, 0x41].length = count24 (memOf [0, 0, 4, 0x90, 0x48, 0x54]) 0 ∧
      s2.num = 0 + count24 (memOf [0, 0, 4, 0x90, 0x48, 0x54]) 0) ∧
    (∀ a b : Fin 256, Tree.node (Tree.leaf 0x41) (Tree.leaf 0x42) = Tree.node (Tree.leaf a) (Tree.leaf b) →
      count24 (memOf [0, 0, 4, 0x90, 0x48, 0x54]) 0 ≤ [true, false, true, false].length →
      [0x42, 0x41, 0x42, 0x41] =
        ([true, false, true, false].take (count24 (memOf [0, 0, 4, 0x90, 0x48, 0x54]) 0)).map
          (fun bit => if bit then b.val else a.val)) :=
  decode_block_decodes (initState (memOf [0, 0, 4, 0x90, 0x48, 0x54]) 0)
    (Tree.node (Tree.leaf 0x41) (Tree.leaf 0x42)) [true, false, true, false]
    [0x42, 0x41, 0x42, 0x41] [] (by decide) (by decide) (by decide) (by decide)

theorem decode_leaf (b : Fin 256) (bs : List Bool) : ∀ n : Nat,
    (Tree.leaf b).decode n bs = some (List.replicate n b.val, bs) := by
  intro n
  induction n with
  | zero => rfl
  | succ n ih => simp only [Tree.decode, Tree.decode1, ih, List.replicate_succ]

/-- C5: at the block `00 00 00 41 00` (count 0, tree a single leaf) the loop
`do ... while (--i)` of `decode_block` runs its body before testing the count and
its first `--i` wraps to 2^32 - 1, so 2^32 bytes are emitted instead of none. -/
theorem decode_block_zero_count :
    ∃ s2, decode_block (initState (memOf [0, 0, 0, 0x41, 0x00]) 0) = some (0, s2) ∧
      s2.num = 4294967296 ∧ s2.out.length = 4294967296 ∧ s2.out.head? = some 130 := by
  obtain ⟨s2, e, h1, h2, -, -, -⟩ :=
    decode_block_run (initState (memOf [0, 0, 0, 0x41, 0x00]) 0) (Tree.leaf 130) []
      (List.replicate (4294967295 + 1) 130) [] 4294967295 (by decide) (by decide) (by decide)
      (decode_leaf 130 [] (4294967295 + 1))
  refine ⟨s2, e, ?_, ?_, ?_⟩
  · rw [h2]; rfl
  · rw [h1, List.length_append, List.length_replicate]; rfl
  · rw [h1, List.replicate_succ]; rfl

/-- When the tree is too large `decode_block` returns the builder's 1 and emits nothing. -/
theorem decode_block_fail (s : State) (t : Tree) (ht : 255 < t.internal)
    (hb : HasBits s.mem (s.cur + 3) 0 t.bits) :
    ∃ s2, decode_block s = some (1, s2) ∧ s2.out = s.out ∧ s2.num = s.num := by
  obtain ⟨s1, e1, -, ho, hu, -⟩ :=
    build_fail (s.cur + 3) t 256 0 (seed s) (seed_synced s) hb (by simp [seed])
      (by simp only [seed]; omega) (by simp [seed])
  rw [decode_block_eq s _ rfl, e1]
  exact ⟨s1, by simp, ho, hu⟩

theorem comb_internal : ∀ n, (comb n).internal = n := by
  intro n
  induction n with
  | zero => rfl
  | succ n ih => simp only [comb, Tree.internal, ih]

theorem comb_bits : ∀ n, (comb n).bits
    = List.replicate n true ++ List.replicate (9 * (n + 1)) false := by
  intro n
  induction n with
  | zero => rfl
  | succ n ih =>
    have e : false :: byteBits (0 : Fin 256).val = List.replicate 9 false := rfl
    simp only [comb, Tree.bits, ih]
    show true :: (List.replicate n true ++ List.replicate (9 * (n + 1)) false
        ++ false :: byteBits (0 : Fin 256).val)
      = (true :: List.replicate n true) ++ List.replicate (9 * (n + 1) + 9) false
    rw [e, List.replicate_add, List.cons_append, List.append_assoc]

theorem hasBits_replicate (mem : Nat → Nat) (base : Nat) (b : Bool) : ∀ (m pos : Nat),
    (∀ i, i < m → bitAt mem base (pos + i) = (if b then 1 else 0)) →
    HasBits mem base pos (List.replicate m b) := by
  intro m
  induction m with
  | zero => intro pos _; exact trivial
  | succ m ih =>
    intro pos h
    refine ⟨by simpa using h 0 (Nat.succ_pos m), ih (pos + 1) ?_⟩
    intro i hi
    have := h (i + 1) (by omega)
    rwa [show pos + (i + 1) = pos + 1 + i by omega] at this

theorem combBlock_bits : HasBits combBlock 3 0 (comb 256).bits := by
  rw [comb_bits, hasBits_append]
  refine ⟨hasBits_replicate _ _ _ _ _ ?_, hasBits_replicate _ _ _ _ _ ?_⟩
  · intro i hi
    have h1 : combBlock (3 + (0 + i) / 8) = 255 := by
      unfold combBlock
      rw [if_neg (by omega), if_neg (by omega), if_pos (by omega)]
    have h2 : (0 + i) % 8 < 8 := Nat.mod_lt _ (by decide)
    simp only [bitAt, load, h1, if_true]
    generalize (0 + i) % 8 = c at h2
    interval_cases c <;> rfl
  · intro i hi
    have h1 : combBlock (3 + (0 + (List.replicate 256 true).length + i) / 8) = 0 := by
      unfold combBlock
      rw [List.length_replicate, if_neg (by omega), if_neg (by omega), if_neg (by omega)]
    simp only [bitAt, load, h1, Nat.zero_mod, Nat.zero_div]
    rfl

/-- C6 as stated fails: the serialized tree `comb 256` has 256 <= 510 internal
nodes, yet `build_table`, entered as `decode_block` enters it, returns 1. -/
theorem build_table_rejects_256 :
    (comb 256).internal = 256 ∧ HasBits combBlock 3 0 (comb 256).bits ∧
    ∃ s2, build_table 256 (seed (initState combBlock 0)) = some (1, s2) := by
  refine ⟨comb_internal 256, combBlock_bits, ?_⟩
  obtain ⟨s2, e, -⟩ :=
    build_fail 3 (comb 256) 256 0 (seed (initState combBlock 0))
      (seed_synced (initState combBlock 0)) combBlock_bits (by simp [seed])
      (by rw [comb_internal]; simp [seed]) (by simp [seed])
  exact ⟨s2, e⟩

/-- C6 (amended): for any valid serialized tree with k internal nodes, k <= 255,
`build_table` entered as `decode_block` enters it succeeds with any depth bound
of at least 256, makes exactly 2k+1 `check` calls (one bit per tree node) and
exactly k+1 `apply` calls (one per leaf, and the tree has k+1 leaves), and
leaves the reader right after the (2k+1) + 8(k+1) bits of the tree. -/
theorem build_table_counts (s : State) (t : Tree) (fuel : Nat) (hf : 256 ≤ fuel)
    (ht : t.internal ≤ 255) (hb : HasBits s.mem (s.cur + 3) 0 t.bits) :
    ∃ s2, build_table fuel (seed s) = some (0, s2) ∧
      s2.nCheck = s.nCheck + (2 * t.internal + 1) ∧
      s2.nApply = s.nApply + (t.internal + 1) ∧ t.leaves = t.internal + 1 ∧
      Synced (s.cur + 3) ((2 * t.internal + 1) + 8 * (t.internal + 1)) s2 := by
  have hdep := Tree.depth_le t
  obtain ⟨s2, e, hs, -, -, -, -, hk, ha, -, -⟩ :=
    build_ok (s.cur + 3) t fuel 0 (seed s) (seed_synced s) hb (by simp only [seed]; omega)
      (by omega)
  rw [Tree.bits_length, Tree.leaves_eq, Nat.zero_add] at hs
  rw [Tree.leaves_eq] at ha
  exact ⟨s2, e, hk, ha, Tree.leaves_eq t, hs⟩

theorem build_table_counts_witness :
    ∃ s2, build_table 256 (seed (initState (memOf [0, 0, 4, 0x90, 0x48, 0x54]) 0)) = some (0, s2) ∧
      s2.nCheck = 0 + (2 * (Tree.node (Tree.leaf 0x41) (Tree.leaf 0x42)).internal + 1) ∧
      s2.nApply = 0 + ((Tree.node (Tree.leaf 0x41) (Tree.leaf 0x42)).internal + 1) ∧
      (Tree.node (Tree.leaf 0x41) (Tree.leaf 0x42)).leaves
        = (Tree.node (Tree.leaf 0x41) (Tree.leaf 0x42)).internal + 1 ∧
      Synced (0 + 3) ((2 * (Tree.node (Tree.leaf 0x41) (Tree.leaf 0x42)).internal + 1)
        + 8 * ((Tree.node (Tree.leaf 0x41) (Tree.leaf 0x42)).internal + 1)) s2 :=
  build_table_counts (initState (memOf [0, 0, 4, 0x90, 0x48, 0x54]) 0)
    (Tree.node (Tree.leaf 0x41) (Tree.leaf 0x42)) 256 (by decide) (by decide) (by decide)

/-- C7 as stated fails: the block `combBlock` carries a serialized tree with
256 <= 510 internal nodes and `decode_block` fails on it with result 1. -/
theorem decode_block_rejects_256 :
    (comb 256).internal ≤ 510 ∧ HasBits combBlock 3 0 (comb 256).bits ∧
    ∃ s2, decode_block (initState combBlock 0) = some (1, s2) := by
  refine ⟨by rw [comb_internal]; decide, combBlock_bits, ?_⟩
  obtain ⟨s2, e, -⟩ :=
    decode_block_fail (initState combBlock 0) (comb 256) (by rw [comb_internal]; decide)
      combBlock_bits
  exact ⟨s2, e⟩

/-- C7 (amended): the decode tree may contain at most 255 internal nodes. With
the node counter initialised to 255 as `decode_block` does, `build_table`
succeeds (result 0) on every serialized tree with at most 255 internal nodes
and returns 1 exactly when the tree has more, the counter then standing at
511; in that case `decode_block` returns 1 as well and emits no byte. -/
theorem build_table_limit (s : State) (t : Tree) (fuel : Nat) (hf : 256 ≤ fuel)
    (hb : HasBits s.mem (s.cur + 3) 0 t.bits) :
    (∃ s2, build_table fuel (seed s) = some (if t.internal ≤ 255 then 0 else 1, s2) ∧
      (255 < t.internal → s2.node = 511)) ∧
    (255 < t.internal →
      ∃ s3, decode_block s = some (1, s3) ∧ s3.out = s.out ∧ s3.num = s.num) := by
  refine ⟨?_, fun ht => decode_block_fail s t ht hb⟩
  by_cases ht : t.internal ≤ 255
  · have hdep := Tree.depth_le t
    obtain ⟨s2, e, -⟩ :=
      build_ok (s.cur + 3) t fuel 0 (seed s) (seed_synced s) hb (by simp only [seed]; omega)
        (by omega)
    exact ⟨s2, by rw [if_pos ht]; exact e, fun h => absurd ht (by omega)⟩
  · obtain ⟨s2, e, hn, -⟩ :=
      build_fail (s.cur + 3) t fuel 0 (seed s) (seed_synced s) hb (by simp [seed])
        (by simp only [seed]; omega) (by simp only [seed]; omega)
    exact ⟨s2, by rw [if_neg ht]; exact e, fun _ => hn⟩

theorem build_table_limit_witness :
    (∃ s2, build_table 256 (seed (initState combBlock 0))
        = some (if (comb 256).internal ≤ 255 then 0 else 1, s2) ∧
      (255 < (comb 256).internal → s2.node = 511)) ∧
    (255 < (comb 256).internal →
      ∃ s3, decode_block (initState combBlock 0) = some (1, s3) ∧
        s3.out = (initState combBlock 0).out ∧ s3.num = (initState combBlock 0).num) :=
  build_table_limit (initState combBlock 0) (comb 256) 256 (by decide) combBlock_bits

/-! ## The bounds of the embedding are never reached -/

/-- From a node counter of at most 510, a depth bound of `511 - node` is never
reached: `build_table` returns, the counter does not decrease, and it is at
most 510 after a success. In particular 256 suffices from 255. -/
theorem build_table_fuel : ∀ (fuel : Nat) (s : State), s.node ≤ 510 → 511 - s.node ≤ fuel →
    ∃ r s2, build_table fuel s = some (r, s2) ∧ s.node ≤ s2.node ∧
      (r = 0 → s2.node ≤ 510) ∧ (r = 0 ∨ r = 1) := by
  intro fuel
  induction fuel with
  | zero => intro s h1 h2; omega
  | succ fuel ih =>
    intro s hn hf
    by_cases hb : (check s).1 = 0
    · rw [build_table_leaf fuel s hb]
      exact ⟨0, _, rfl, by simp, fun _ => by simpa using hn, Or.inl rfl⟩
    have hm : (s.node + 1) % 65536 = s.node + 1 := by omega
    by_cases h510 : s.node = 510
    · rw [build_table_full fuel s hb (by omega), hm]
      exact ⟨1, _, rfl, by simp, fun h => absurd h (by decide), Or.inr rfl⟩
    rw [build_table_node fuel s hb (by omega), hm]
    obtain ⟨r3, s3, e3, hn3, hr3, hv3⟩ :=
      ih { (check s).2 with node := s.node + 1 } (by dsimp only; omega) (by dsimp only; omega)
    simp only at hn3
    rw [e3]
    by_cases h3 : r3 = 0
    · have g3 := hr3 h3
      obtain ⟨r5, s5, e5, hn5, hr5, hv5⟩ :=
        ih { s3 with big := store s3.big (2 * (s.node + 1) % 65536) s3.value }
          (by dsimp only; omega) (by dsimp only; omega)
      simp only at hn5
      simp only [h3, if_true, e5]
      by_cases h5 : r5 = 0
      · simp only [h5, if_true]
        exact ⟨0, _, rfl, by dsimp only; omega, fun _ => by dsimp only; exact hr5 h5, Or.inl rfl⟩
      · simp only [h5, if_false]
        exact ⟨r5, s5, rfl, by omega, fun h => absurd h h5, hv5⟩
    · simp only [h3, if_false]
      exact ⟨r3, s3, rfl, by omega, fun h => absurd h h3, hv3⟩

theorem bitAt_lt (mem : Nat → Nat) (base i : Nat) : bitAt mem base i < 2 :=
  Nat.mod_lt _ (by decide)

theorem bits_of_val (v b0 b1 b2 b3 b4 b5 b6 b7 : Nat) (h0 : b0 < 2) (h1 : b1 < 2)
    (h2 : b2 < 2) (h3 : b3 < 2) (h4 : b4 < 2) (h5 : b5 < 2) (h6 : b6 < 2) (h7 : b7 < 2)
    (h : 2 * (2 * (2 * (2 * (2 * (2 * (2 * b0 + b1) + b2) + b3) + b4) + b5) + b6) + b7 = v) :
    b0 = v / 128 % 2 ∧ b1 = v / 64 % 2 ∧ b2 = v / 32 % 2 ∧ b3 = v / 16 % 2 ∧
    b4 = v / 8 % 2 ∧ b5 = v / 4 % 2 ∧ b6 = v / 2 % 2 ∧ b7 = v % 2 := by
  subst h
  refine ⟨?_, ?_, ?_, ?_, ?_, ?_, ?_, ?_⟩ <;> omega

/-- The byte `apply` captures is the byte written by the next eight stream bits. -/
theorem apply_hasBits (base pos : Nat) (s : State) (h : Synced base pos s) :
    HasBits s.mem base pos (byteBits (apply s).value) := by
  have hc : s.cnt < 8 := by rw [h.1]; exact Nat.mod_lt _ (by decide)
  have hv := apply_checks_bits s hc
  rw [(checkN_synced base 8 pos s h).1] at hv
  simp only [List.range, List.range.loop, List.map, bitsVal, List.foldl, Nat.add_zero,
    Nat.mul_zero, Nat.zero_add] at hv
  obtain ⟨e0, e1, e2, e3, e4, e5, e6, e7⟩ :=
    bits_of_val _ _ _ _ _ _ _ _ _ (bitAt_lt s.mem base pos) (bitAt_lt s.mem base (pos + 1))
      (bitAt_lt s.mem base (pos + 2)) (bitAt_lt s.mem base (pos + 3))
      (bitAt_lt s.mem base (pos + 4)) (bitAt_lt s.mem base (pos + 5))
      (bitAt_lt s.mem base (pos + 6)) (bitAt_lt s.mem base (pos + 7)) hv
  simp only [HasBits, byteBits, decide_eq_true_eq, ite_bit, Nat.add_assoc, Nat.reduceAdd]
  exact ⟨e0, e1, e2, e3, e4, e5, e6, e7, trivial⟩

/-- Every successful run of `build_table` has read the serialization of a tree. -/
theorem build_parse (base : Nat) : ∀ (fuel pos : Nat) (s s2 : State),
    Synced base pos s → s.node ≤ 510 → build_table fuel s = some (0, s2) →
    ∃ t : Tree, HasBits s.mem base pos t.bits ∧ s.node + t.internal ≤ 510 ∧
      t.depth ≤ fuel := by
  intro fuel
  induction fuel with
  | zero => intro pos s s2 _ _ h; simp [build_table] at h
  | succ fuel ih =>
    intro pos s s2 hs hn h
    obtain ⟨hc, hs1⟩ := check_synced base pos s hs
    by_cases hb : (check s).1 = 0
    · have hlt : (apply (check s).2).value < 256 := Nat.mod_lt _ (by decide)
      refine ⟨Tree.leaf ⟨(apply (check s).2).value, hlt⟩, ⟨?_, ?_⟩, by simp [Tree.internal, hn],
        by simp [Tree.depth]⟩
      · rw [← hc, hb]; rfl
      · have := apply_hasBits base (pos + 1) _ hs1
        simpa using this
    have hm : (s.node + 1) % 65536 = s.node + 1 := by omega
    have hbit : bitAt s.mem base pos = 1 := by
      have := bitAt_lt s.mem base pos
      rw [hc] at hb
      omega
    by_cases h510 : s.node = 510
    · rw [build_table_full fuel s hb (by omega)] at h
      simp at h
    have hi : 2 * (s.node + 1) % 65536 = 2 * (s.node + 1) := by omega
    rw [build_table_node fuel s hb (by omega), hm, hi] at h
    split at h
    · exact absurd h (by simp)
    rename_i r3 s3 e3
    by_cases h3 : r3 = 0
    swap
    · rw [if_neg h3] at h
      simp only [Option.some.injEq, Prod.mk.injEq] at h
      exact absurd h.1 h3
    subst h3
    rw [if_pos rfl] at h
    obtain ⟨tl, hbl, hnl, hdl⟩ :=
      ih (pos + 1) { (check s).2 with node := s.node + 1 } s3 hs1 (by dsimp only; omega) e3
    simp only [check_mem] at hbl hnl
    obtain ⟨s3b, e3b, hs3, hn3, hm3, -⟩ :=
      build_ok base tl fuel (pos + 1) { (check s).2 with node := s.node + 1 } hs1
        (by simpa using hbl) hnl hdl
    rw [e3] at e3b
    simp only [Option.some.injEq, Prod.mk.injEq, true_and] at e3b
    subst e3b
    simp only [check_mem] at hn3 hm3
    split at h
    · exact absurd h (by simp)
    rename_i r5 s5 e5
    by_cases h5 : r5 = 0
    swap
    · rw [if_neg h5] at h
      simp only [Option.some.injEq, Prod.mk.injEq] at h
      exact absurd h.1 h5
    subst h5
    obtain ⟨tr, hbr, hnr, hdr⟩ :=
      ih (pos + 1 + tl.bits.length)
        { s3 with big := store s3.big (2 * (s.node + 1)) s3.value } s5 hs3
        (by dsimp only; omega) e5
    simp only [hn3, hm3] at hbr hnr
    refine ⟨Tree.node tl tr, ⟨?_, ?_⟩, ?_, ?_⟩
    · rw [hbit]; rfl
    · exact (hasBits_append _ _ _ _ _).2 ⟨hbl, hbr⟩
    · simp only [Tree.internal]; omega
    · simp only [Tree.depth]
      have := Nat.max_le.2 ⟨hdl, hdr⟩
      omega

/-- On tables holding a tree the inner loop ends at a leaf within its bound,
whatever the stream holds. -/
theorem walk_total : ∀ (t : Tree) (lo fuel : Nat) (s : State),
    Rep s.big s.small t lo s.value → 255 ≤ lo → lo + t.internal ≤ 510 →
    t.depth ≤ fuel + 1 →
    ∃ s2, walk fuel s = some s2 ∧ s2.value < 256 ∧ s2.big = s.big ∧ s2.small = s.small := by
  intro t
  induction t with
  | leaf c =>
    intro lo fuel s hr _ _ _
    simp only [Rep] at hr
    have hlt : s.value < 256 := by have := c.isLt; omega
    exact ⟨s, walk_leaf fuel s hlt, hlt, rfl, rfl⟩
  | node l r ihl ihr =>
    intro lo fuel s hr hlo hn hf
    obtain ⟨hv, hrl, hrr⟩ := hr
    simp only [Tree.internal] at hn
    simp only [Tree.depth] at hf
    have hd1 : 1 ≤ l.depth := by cases l <;> simp [Tree.depth]
    have hmax : l.depth ≤ fuel ∧ r.depth ≤ fuel := by
      have := Nat.le_max_left l.depth r.depth
      have := Nat.le_max_right l.depth r.depth
      omega
    obtain ⟨fuel, rfl⟩ : ∃ f, fuel = f + 1 := ⟨fuel - 1, by omega⟩
    have hi : s.value * 2 % 65536 = 2 * (lo + 1) := by omega
    rw [walk_node fuel s (by omega), hi]
    have hlr := rep_le _ _ r _ _ hrr (by omega)
    have hll := rep_le _ _ l _ _ hrl (by omega)
    have hmr : s.small (2 * (lo + 1)) % 65536 = s.small (2 * (lo + 1)) := by omega
    have hml : s.big (2 * (lo + 1)) % 65536 = s.big (2 * (lo + 1)) := by omega
    rw [hmr, hml]
    by_cases hb : (check s).1 ≠ 0
    · rw [if_pos hb]
      obtain ⟨s2, e, h1, h2, h3⟩ :=
        ihr (lo + 1 + l.internal) fuel { (check s).2 with value := s.small (2 * (lo + 1)) }
          (by simpa using hrr) (by omega) (by omega) (by omega)
      exact ⟨s2, e, h1, by simpa using h2, by simpa using h3⟩
    · rw [if_neg hb]
      obtain ⟨s2, e, h1, h2, h3⟩ :=
        ihl (lo + 1) fuel { (check s).2 with value := s.big (2 * (lo + 1)) }
          (by simpa using hrl) (by omega) (by omega) (by omega)
      exact ⟨s2, e, h1, by simpa using h2, by simpa using h3⟩

theorem emitLoop_total (t : Tree) (root : Nat) (ht : t.internal ≤ 255) :
    ∀ (k : Nat) (s : State), Rep s.big s.small t 255 root →
    ∃ s2, emitLoop root k s = some s2 := by
  have hdep := Tree.depth_le t
  have step : ∀ s : State, Rep s.big s.small t 255 root →
      ∃ s2, emit root s = some s2 ∧ s2.big = s.big ∧ s2.small = s.small := by
    intro s hr
    obtain ⟨s1, e, -, h2, h3⟩ :=
      walk_total t 255 256 { s with value := root } hr (Nat.le_refl _) (by omega) (by omega)
    exact ⟨{ s1 with out := s1.out ++ [s1.value % 256], num := s1.num + 1 },
      by simp only [emit, e], h2, h3⟩
  intro k
  induction k with
  | zero =>
    intro s hr
    obtain ⟨s2, e, -⟩ := step s hr
    exact ⟨s2, by simpa [emitLoop] using e⟩
  | succ k ih =>
    intro s hr
    obtain ⟨s1, e, h2, h3⟩ := step s hr
    obtain ⟨s2, e2⟩ := ih s1 (by rw [h2, h3]; exact hr)
    exact ⟨s2, by simp only [emitLoop, e, e2]⟩

/-- The bounds inside `decode_block` are never reached: it returns a result
for every state, and the result is 0 or 1. -/
theorem decode_block_total (s : State) :
    ∃ r s2, decode_block s = some (r, s2) ∧ (r = 0 ∨ r = 1) := by
  obtain ⟨r, s1, e1, -, -, hv⟩ :=
    build_table_fuel 256 (seed s) (by simp [seed]) (by simp [seed])
  generalize hk : (count24 s.mem s.cur + 4294967295) % 4294967296 = k
  rw [decode_block_eq s k hk, e1]
  by_cases hr : r = 0
  · subst hr
    obtain ⟨t, hb, hn, hd⟩ :=
      build_parse (s.cur + 3) 256 0 (seed s) s1 (seed_synced s) (by simp [seed]) e1
    obtain ⟨s1b, e1b, -, -, -, -, -, -, -, hrep, -⟩ :=
      build_ok (s.cur + 3) t 256 0 (seed s) (seed_synced s) hb hn hd
    rw [e1] at e1b
    simp only [Option.some.injEq, Prod.mk.injEq, true_and] at e1b
    subst e1b
    have hn2 : t.internal ≤ 255 := by simp only [seed] at hn; omega
    obtain ⟨s2, e2⟩ := emitLoop_total t s1.value hn2 k s1 hrep
    simp only [if_true, e2]
    by_cases h0 : s2.cnt = 0
    · rw [if_pos h0]; exact ⟨0, _, rfl, Or.inl rfl⟩
    · rw [if_neg h0]; exact ⟨0, _, rfl, Or.inl rfl⟩
  · simp only [if_neg hr]
    exact ⟨r, s1, rfl, hv⟩

/-! ## The stream decompressor -/

theorem blocks_stop (fuel : Nat) (s : State) (h : load s.mem s.cur ≠ 1) :
    blocks (fuel + 1) s
      = some (if load s.mem s.cur ≠ 0 then 1 else 0, { s with cur := s.cur + 1 }) := by
  simp only [blocks, h, ne_eq, not_false_eq_true, if_true]

theorem blocks_step (fuel : Nat) (s : State) (h : load s.mem s.cur = 1) :
    blocks (fuel + 1) s =
      match decode_block { s with cur := s.cur + 1 } with
      | none => none
      | some (result, s2) => if result ≠ 0 then some (result, s2) else blocks fuel s2 := by
  rw [blocks]
  simp only [h, ne_eq, not_true_eq_false, if_false]

/-- The loop of `decompress` on a well-formed stream. -/
theorem blocks_run : ∀ (bs : List Block) (s : State) (fuel : Nat),
    StreamAt s.mem s.cur bs → bs.length < fuel →
    ∃ s2, blocks fuel s = some (0, s2) ∧ s2.out = s.out ++ outputOf bs ∧
      s2.num = s.num + (outputOf bs).length ∧ s2.mem = s.mem := by
  intro bs
  induction bs with
  | nil =>
    intro s fuel h hf
    obtain ⟨fuel, rfl⟩ : ∃ f, fuel = f + 1 := ⟨fuel - 1, by omega⟩
    have h0 : load s.mem s.cur = 0 := h
    rw [blocks_stop fuel s (by omega), h0]
    exact ⟨_, rfl, by simp [outputOf], by simp [outputOf], rfl⟩
  | cons b bs ih =>
    intro s fuel h hf
    obtain ⟨fuel, rfl⟩ : ∃ f, fuel = f + 1 := ⟨fuel - 1, by omega⟩
    obtain ⟨h1, ⟨hN, ht, hb, hd⟩, hrest⟩ := h
    have hlt := count24_lt s.mem (s.cur + 1)
    have hk : (count24 s.mem (s.cur + 1) + 4294967295) % 4294967296
        = count24 s.mem (s.cur + 1) - 1 := by omega
    have hd2 : b.tree.decode (count24 s.mem (s.cur + 1) - 1 + 1) b.sym = some (b.outs, []) := by
      rw [Nat.sub_add_cancel hN]; exact hd
    have hlen := Tree.decode_length _ _ _ _ _ hd
    obtain ⟨s2, e, g1, g2, g3, g4, -⟩ :=
      decode_block_run { s with cur := s.cur + 1 } b.tree b.sym b.outs []
        (count24 s.mem (s.cur + 1) - 1) ht hk hb hd2
    simp only [List.length_nil, Nat.sub_zero] at g3
    obtain ⟨s3, e3, k1, k2, k3⟩ := ih s2 fuel
      (by rw [g4, g3]
          have : s.cur + 1 + 3 + (b.tree.bits.length + b.sym.length + 7) / 8
              = s.cur + 1 + b.size := by unfold Block.size; omega
          rw [this]; exact hrest)
      (by simp only [List.length_cons] at hf; omega)
    rw [blocks_step fuel s h1, e]
    simp only [ne_eq, not_true_eq_false, if_false]
    refine ⟨s3, e3, ?_, ?_, by rw [k3, g4]⟩
    · rw [k1, g1]; simp [outputOf]
    · rw [k2, g2]; simp only [outputOf, List.length_append, hlen]; omega

/-- The decompressor on a stream of n >= 0 blocks whose counts are all at
least 1 (`BlockAt`), each preceded by the marker byte 1, followed by the marker
byte 0: `decompress` (given a bound above n on the markers it may read) returns
0, the bytes written are the concatenation in stream order of the bytes of each
block, and `gNumDecodedBytes` is their total length; and whenever
`decode_block` fails on a block, the loop stops there and returns that
failure. -/
theorem decompress_blocks (mem : Nat → Nat) (p : Nat) (bs : List Block) (fuel : Nat)
    (h : StreamAt mem p bs) (hf : bs.length < fuel) :
    (∃ s2, decompress fuel mem p = some (0, s2) ∧ s2.out = outputOf bs ∧
      s2.num = (outputOf bs).length) ∧
    (∀ (s : State) (r : Nat) (s2 : State), load s.mem s.cur = 1 →
      decode_block { s with cur := s.cur + 1 } = some (r, s2) → r ≠ 0 →
      blocks fuel s = some (r, s2)) := by
  refine ⟨?_, ?_⟩
  · obtain ⟨s2, e, h1, h2, -⟩ := blocks_run bs (initState mem p) fuel h hf
    exact ⟨s2, e, by simpa [initState] using h1, by simpa [initState] using h2⟩
  · intro s r s2 h1 hd hr
    obtain ⟨fuel, rfl⟩ : ∃ f, fuel = f + 1 := ⟨fuel - 1, by omega⟩
    rw [blocks_step fuel s h1, hd]
    simp only [ne_eq, hr, not_false_eq_true, if_true]

theorem decompress_blocks_witness :
    (∃ s2, decompress 3
        (memOf [1, 0, 0, 4, 0x90, 0x48, 0x54, 1, 0, 0, 1, 0x21, 0x00, 0]) 0 = some (0, s2) ∧
      s2.out = outputOf
        [⟨Tree.node (Tree.leaf 0x41) (Tree.leaf 0x42), [true, false, true, false],
            [0x42, 0x41, 0x42, 0x41]⟩,
          ⟨Tree.leaf 66, [], [66]⟩] ∧
      s2.num = (outputOf
        [⟨Tree.node (Tree.leaf 0x41) (Tree.leaf 0x42), [true, false, true, false],
            [0x42, 0x41, 0x42, 0x41]⟩,
          ⟨Tree.leaf 66, [], [66]⟩]).length) ∧
    (∀ (s : State) (r : Nat) (s2 : State), load s.mem s.cur = 1 →
      decode_block { s with cur := s.cur + 1 } = some (r, s2) → r ≠ 0 →
      blocks 3 s = some (r, s2)) :=
  decompress_blocks (memOf [1, 0, 0, 4, 0x90, 0x48, 0x54, 1, 0, 0, 1, 0x21, 0x00, 0]) 0
    [⟨Tree.node (Tree.leaf 0x41) (Tree.leaf 0x42), [true, false, true, false],
        [0x42, 0x41, 0x42, 0x41]⟩,
      ⟨Tree.leaf 66, [], [66]⟩] 3
    ⟨by decide, ⟨by decide, by decide, by decide, by decide⟩,
      (by decide :
        load (memOf [1, 0, 0, 4, 0x90, 0x48, 0x54, 1, 0, 0, 1, 0x21, 0x00, 0]) 7 = 1),
      ⟨by decide, by decide, by decide, by decide⟩,
      (by decide :
        load (memOf [1, 0, 0, 4, 0x90, 0x48, 0x54, 1, 0, 0, 1, 0x21, 0x00, 0]) 13 = 0)⟩
    (by decide)

/-- The loop of `decompress` at the marker 1 followed by a block of count 0
whose tree is a single leaf, followed by the marker 0: the symbol loop of
`decode_block` makes 2^32 passes. -/
theorem blocks_zero_leaf (fuel : Nat) (s : State) (b : Fin 256)
    (h1 : load s.mem s.cur = 1) (hN : count24 s.mem (s.cur + 1) = 0)
    (hb : HasBits s.mem (s.cur + 1 + 3) 0 ((Tree.leaf b).bits ++ []))
    (h0 : load s.mem (s.cur + 6) = 0) :
    ∃ s2, blocks (fuel + 2) s = some (0, s2) ∧
      s2.out = s.out ++ List.replicate (4294967295 + 1) b.val ∧
      s2.num = s.num + (4294967295 + 1) ∧ s2.cur = s.cur + 7 := by
  obtain ⟨s2, e, g1, g2, g3, g4, -⟩ :=
    decode_block_run { s with cur := s.cur + 1 } (Tree.leaf b) []
      (List.replicate (4294967295 + 1) b.val) [] 4294967295 (Nat.zero_le _)
      (by show (count24 s.mem (s.cur + 1) + 4294967295) % 4294967296 = 4294967295
          rw [hN])
      hb (decode_leaf b [] (4294967295 + 1))
  have hl : (Tree.leaf b).bits.length = 9 := by
    rw [Tree.bits_length]; rfl
  have hc : s2.cur = s.cur + 6 := by
    rw [g3, hl]
    show s.cur + 1 + 3 + (9 + (0 - 0) + 7) / 8 = s.cur + 6
    omega
  have hm : load s2.mem s2.cur = 0 := by rw [g4, hc]; exact h0
  rw [blocks_step (fuel + 1) s h1, e]
  simp only [ne_eq, not_true_eq_false, if_false]
  rw [blocks_stop fuel s2 (by rw [hm]; decide), hm]
  exact ⟨_, rfl, g1, g2, by show s2.cur + 1 = _; rw [hc]⟩

/-- C2: the stream `01 00 00 00 41 00 00` is the marker 1, a block of count 0
whose tree is the single leaf 0x82, and the marker 0. The block has no symbol
and no byte of its own, so the concatenation of the bytes of the blocks is
empty; but `decompress` returns 0 having written 2^32 bytes, because the symbol
loop of `decode_block` runs its body before it tests the count. -/
theorem decompress_zero_count (fuel : Nat) :
    (load (memOf [1, 0, 0, 0, 0x41, 0x00, 0]) 0 = 1 ∧
      count24 (memOf [1, 0, 0, 0, 0x41, 0x00, 0]) 1 = 0 ∧
      (Tree.leaf 130).internal ≤ 255 ∧
      HasBits (memOf [1, 0, 0, 0, 0x41, 0x00, 0]) 4 0 ((Tree.leaf 130).bits ++ []) ∧
      (Tree.leaf 130).decode (count24 (memOf [1, 0, 0, 0, 0x41, 0x00, 0]) 1) [] = some ([], []) ∧
      load (memOf [1, 0, 0, 0, 0x41, 0x00, 0]) 6 = 0 ∧
      outputOf [⟨Tree.leaf 130, [], []⟩] = []) ∧
    ∃ s2, decompress (fuel + 2) (memOf [1, 0, 0, 0, 0x41, 0x00, 0]) 0 = some (0, s2) ∧
      s2.num = 4294967296 ∧ s2.out.length = 4294967296 ∧ s2.out.head? = some 130 ∧
      s2.cur = 7 := by
  refine ⟨⟨by decide, by decide, by decide, by decide, by decide, by decide, rfl⟩, ?_⟩
  obtain ⟨s2, e, h1, h2, h3⟩ :=
    blocks_zero_leaf fuel (initState (memOf [1, 0, 0, 0, 0x41, 0x00, 0]) 0) 130
      (by decide) (by decide) (by decide) (by decide)
  refine ⟨s2, e, ?_, ?_, ?_, ?_⟩
  · rw [h2]; rfl
  · rw [h1, List.length_append, List.length_replicate]; rfl
  · rw [h1, List.replicate_succ]; rfl
  · rw [h3]; rfl

/-- C3: for every input whose first byte is the marker 0, `decompress` returns
0 at once: no output byte is written, `gNumDecodedBytes` is 0 and exactly one
input byte is consumed. -/
theorem decompress_end_marker (mem : Nat → Nat) (input fuel : Nat)
    (h : load mem input = 0) (hf : 0 < fuel) :
    ∃ s2, decompress fuel mem input = some (0, s2) ∧ s2.out = [] ∧ s2.num = 0 ∧
      s2.cur = input + 1 := by
  obtain ⟨fuel, rfl⟩ : ∃ f, fuel = f + 1 := ⟨fuel - 1, by omega⟩
  have h1 : load (initState mem input).mem (initState mem input).cur ≠ 1 := by
    show load mem input ≠ 1
    omega
  have h0 : load (initState mem input).mem (initState mem input).cur = 0 := h
  unfold decompress
  rw [blocks_stop fuel _ h1, h0]
  exact ⟨_, rfl, rfl, rfl, rfl⟩

theorem decompress_end_marker_witness :
    ∃ s2, decompress 1 (memOf [0, 7, 7]) 0 = some (0, s2) ∧ s2.out = [] ∧ s2.num = 0 ∧
      s2.cur = 0 + 1 :=
  decompress_end_marker (memOf [0, 7, 7]) 0 1 (by decide) (by decide)

/-- C4: for every input whose first byte is a marker other than 0 or 1,
`decompress` fails with the non-zero result 1 and produces no output (no byte
written, `gNumDecodedBytes` 0); more generally, whenever the loop reads a marker
other than 0 or 1 at a block boundary it returns 1 there. -/
theorem decompress_bad_marker (mem : Nat → Nat) (input fuel : Nat)
    (h0 : load mem input ≠ 0) (h1 : load mem input ≠ 1) (hf : 0 < fuel) :
    (∃ s2, decompress fuel mem input = some (1, s2) ∧ s2.out = [] ∧ s2.num = 0) ∧
    (∀ s : State, load s.mem s.cur ≠ 0 → load s.mem s.cur ≠ 1 →
      blocks fuel s = some (1, { s with cur := s.cur + 1 })) := by
  obtain ⟨fuel, rfl⟩ : ∃ f, fuel = f + 1 := ⟨fuel - 1, by omega⟩
  have key : ∀ s : State, load s.mem s.cur ≠ 0 → load s.mem s.cur ≠ 1 →
      blocks (fuel + 1) s = some (1, { s with cur := s.cur + 1 }) := by
    intro s g0 g1
    rw [blocks_stop fuel s g1, if_pos g0]
  refine ⟨⟨_, key (initState mem input) h0 h1, rfl, rfl⟩, key⟩

theorem decompress_bad_marker_witness :
    (∃ s2, decompress 1 (memOf [5]) 0 = some (1, s2) ∧ s2.out = [] ∧ s2.num = 0) ∧
    (∀ s : State, load s.mem s.cur ≠ 0 → load s.mem s.cur ≠ 1 →
      blocks 1 s = some (1, { s with cur := s.cur + 1 })) :=
  decompress_bad_marker (memOf [5]) 0 1 (by decide) (by decide) (by decide)

/-! ## The container scanner -/

/-- The ways a pass of the loop body can end: unchanged state, `break`,
`return 1`, a store past the allocation, an unfinished `decompress`, or a state
advanced by header and payload after a successful `decompress`. -/
theorem candidate_cases (fuel : Nat) (mem : Nat → Nat) (n : Nat) (sc : Scan) :
    candidate fuel mem n sc = Step.next sc ∨ candidate fuel mem n sc = Step.brk ∨
    candidate fuel mem n sc = Step.ret 1 ∨ candidate fuel mem n sc = Step.overrun ∨
    candidate fuel mem n sc = Step.unfinished ∨
    ∃ (h : Nat) (st : State), decompress fuel mem (sc.i + h) = some (0, st) ∧
      candidate fuel mem n sc = Step.next
        { i := sc.i + (h + load32 mem (sc.i + 36)),
          size := sc.size + load16 mem (sc.i + 40) * 2 ^ 10,
          output := sc.output ++ st.out.map some
            ++ List.replicate (load16 mem (sc.i + 40) * 2 ^ 10 - st.out.length) none } := by
  unfold candidate
  by_cases hsig : load32 mem (sc.i + 3) = 0x534F4942
  swap
  · rw [if_neg hsig]; exact Or.inl rfl
  rw [if_pos hsig]
  dsimp only
  by_cases h42 : n - sc.i + 3 < 42
  · rw [if_pos h42]; exact Or.inr (Or.inl rfl)
  rw [if_neg h42]
  by_cases hz : load16 mem sc.i = 0
  swap
  · rw [if_pos hz]; exact Or.inl rfl
  rw [if_neg (not_not.2 hz)]
  generalize (if load mem (sc.i + 2) = 0 then 0x100
    else if load mem (sc.i + 2) = 2 then 0x200 else 0x200) = header_size
  by_cases hr4 : n - sc.i + 3 < header_size + 4
  · rw [if_pos hr4]; exact Or.inl rfl
  rw [if_neg hr4]
  by_cases hc : load mem (sc.i + 27) > 1
  · rw [if_pos hc]; exact Or.inl rfl
  rw [if_neg hc]
  by_cases hs : load32 mem (sc.i + 36) > load16 mem (sc.i + 40) * 2 ^ 10
  · rw [if_pos hs]; exact Or.inl rfl
  rw [if_neg hs]
  by_cases hd : load16 mem (sc.i + 40) * 2 ^ 10 > 0x400000
  · rw [if_pos hd]; exact Or.inl rfl
  rw [if_neg hd]
  by_cases hr : n - sc.i + 3 < header_size + load32 mem (sc.i + 36)
  · rw [if_pos hr]; exact Or.inl rfl
  rw [if_neg hr]
  by_cases hc0 : load mem (sc.i + 27) = 0
  · rw [if_pos hc0]; exact Or.inr (Or.inr (Or.inl rfl))
  rw [if_neg hc0]
  by_cases hc1 : load mem (sc.i + 27) = 1
  swap
  · rw [if_neg hc1]; exact Or.inl rfl
  rw [if_pos hc1]
  cases hdec : decompress fuel mem (sc.i + header_size) with
  | none => exact Or.inr (Or.inr (Or.inr (Or.inr (Or.inl rfl))))
  | some p =>
    obtain ⟨result, st⟩ := p
    dsimp only
    by_cases hlen : st.out.length > load16 mem (sc.i + 40) * 2 ^ 10
    · rw [if_pos hlen]; exact Or.inr (Or.inr (Or.inr (Or.inl rfl)))
    rw [if_neg hlen]
    by_cases hres : result = 0
    swap
    · rw [if_pos hres]; exact Or.inr (Or.inr (Or.inl rfl))
    rw [if_neg (not_not.2 hres)]
    subst hres
    exact Or.inr (Or.inr (Or.inr (Or.inr (Or.inr ⟨header_size, st, hdec, rfl⟩))))

/-- A pass of the loop body never moves `i` backwards. -/
theorem candidate_next_le (fuel : Nat) (mem : Nat → Nat) (n : Nat) (sc sc2 : Scan)
    (h : candidate fuel mem n sc = Step.next sc2) : sc.i ≤ sc2.i := by
  rcases candidate_cases fuel mem n sc with e | e | e | e | e | ⟨hs, st, -, e⟩
  all_goals rw [e] at h
  · injection h with h; subst h; exact Nat.le_refl _
  · exact absurd h (by simp)
  · exact absurd h (by simp)
  · exact absurd h (by simp)
  · exact absurd h (by simp)
  · injection h with h; subst h; exact Nat.le_add_right _ _

/-- Passes beyond `input_size - 42 - i` are not used: a larger bound on the
number of passes gives the same result. -/
theorem scan_bound (fuel : Nat) (mem : Nat → Nat) (n : Nat) : ∀ (k : Nat) (sc : Scan),
    n - 42 - sc.i < k → scan fuel mem n (k + 1) sc = scan fuel mem n k sc := by
  intro k
  induction k with
  | zero => intro sc h; omega
  | succ k ih =>
    intro sc h
    rw [scan, scan]
    by_cases hi : sc.i < n - 42
    · simp only [if_pos hi]
      cases hc : candidate fuel mem n sc with
      | next sc2 =>
        have := candidate_next_le fuel mem n sc sc2 hc
        exact ih { sc2 with i := sc2.i + 1 } (by dsimp only; omega)
      | brk => rfl
      | ret c => rfl
      | overrun => rfl
      | unfinished => rfl
    · simp only [if_neg hi]

/-- C8: for every signature-matching header candidate inside the loop of
`comextract`, if its zero field is non-zero, or its compression flag is outside
0..1, or compressed_size > decompressed_size (= DecompressedSizeShifted << 10),
or decompressed_size > 0x400000, the candidate is rejected without invoking
`decompress` (the body ends the same way when `decompress` is given no marker
to read at all): output buffer and accumulated size are unchanged and the loop
goes on at the next offset. -/
theorem candidate_rejected (fuel : Nat) (mem : Nat → Nat) (n : Nat) (sc : Scan)
    (hi : sc.i < n - 42) (hsig : load32 mem (sc.i + 3) = 0x534F4942)
    (hbad : load16 mem sc.i ≠ 0 ∨ 1 < load mem (sc.i + 27) ∨
      load16 mem (sc.i + 40) * 2 ^ 10 < load32 mem (sc.i + 36) ∨
      0x400000 < load16 mem (sc.i + 40) * 2 ^ 10) :
    candidate fuel mem n sc = Step.next sc ∧ candidate 0 mem n sc = Step.next sc ∧
    ∀ k, scan fuel mem n (k + 1) sc = scan fuel mem n k { sc with i := sc.i + 1 } := by
  have key : ∀ f, candidate f mem n sc = Step.next sc := by
    intro f
    have hr : ¬ n - sc.i + 3 < 42 := by omega
    unfold candidate
    rw [if_pos hsig]
    dsimp only
    rw [if_neg hr]
    by_cases hz : load16 mem sc.i = 0
    swap
    · rw [if_pos hz]
    rw [if_neg (not_not.2 hz)]
    generalize (if load mem (sc.i + 2) = 0 then 0x100
      else if load mem (sc.i + 2) = 2 then 0x200 else 0x200) = header_size
    by_cases hr2 : n - sc.i + 3 < header_size + 4
    · rw [if_pos hr2]
    rw [if_neg hr2]
    by_cases hc : load mem (sc.i + 27) > 1
    · rw [if_pos hc]
    rw [if_neg hc]
    by_cases hs : load32 mem (sc.i + 36) > load16 mem (sc.i + 40) * 2 ^ 10
    · rw [if_pos hs]
    rw [if_neg hs]
    by_cases hd : load16 mem (sc.i + 40) * 2 ^ 10 > 0x400000
    · rw [if_pos hd]
    exfalso
    rcases hbad with h | h | h | h
    · exact h hz
    · exact hc h
    · exact hs h
    · exact hd h
  refine ⟨key fuel, key 0, fun k => ?_⟩
  simp only [scan, if_pos hi, key fuel]

theorem candidate_rejected_witness :
    candidate 5 (fun p => if p = 27 then 2 else sampleFile 4 p) 300 ⟨0, 0, []⟩
        = Step.next ⟨0, 0, []⟩ ∧
    candidate 0 (fun p => if p = 27 then 2 else sampleFile 4 p) 300 ⟨0, 0, []⟩
        = Step.next ⟨0, 0, []⟩ ∧
    ∀ k, scan 5 (fun p => if p = 27 then 2 else sampleFile 4 p) 300 (k + 1) ⟨0, 0, []⟩
        = scan 5 (fun p => if p = 27 then 2 else sampleFile 4 p) 300 k
            { (⟨0, 0, []⟩ : Scan) with i := (⟨0, 0, []⟩ : Scan).i + 1 } :=
  candidate_rejected 5 (fun p => if p = 27 then 2 else sampleFile 4 p) 300 ⟨0, 0, []⟩
    (by decide) (by decide) (Or.inr (Or.inl (by decide)))

/-- After a pass that ends in `Step.next`, the loop goes on at the offset after
the one the body left in `i`. -/
theorem scan_next (fuel : Nat) (mem : Nat → Nat) (n k : Nat) (sc sc2 : Scan)
    (hi : sc.i < n - 42) (h : candidate fuel mem n sc = Step.next sc2) :
    scan fuel mem n (k + 1) sc = scan fuel mem n k { sc2 with i := sc2.i + 1 } := by
  simp only [scan, if_pos hi, h]

/-- The accepting branch of the loop body: at a header candidate with version
0, compression flag 1, compressed_size = S, DecompressedSizeShifted = D,
S <= (D<<10) <= 0x400000 that passes the two tests on `rest`, `decompress` is
entered at offset i+256 (no length is passed), and when it returns 0 having
stored at most D<<10 bytes, the accumulated output size grows by D<<10, the
added region starts with the bytes the codec decoded (the rest stays as
allocated), and `i` is advanced by 256 + S. -/
theorem candidate_accepted (fuel : Nat) (mem : Nat → Nat) (n : Nat) (sc : Scan) (st : State)
    (hsig : load32 mem (sc.i + 3) = 0x534F4942)
    (hz : load16 mem sc.i = 0) (hv : load mem (sc.i + 2) = 0) (hc : load mem (sc.i + 27) = 1)
    (hs : load32 mem (sc.i + 36) ≤ load16 mem (sc.i + 40) * 2 ^ 10)
    (hd : load16 mem (sc.i + 40) * 2 ^ 10 ≤ 0x400000)
    (hr4 : 0x100 + 4 ≤ n - sc.i + 3)
    (hr : 0x100 + load32 mem (sc.i + 36) ≤ n - sc.i + 3)
    (hdec : decompress fuel mem (sc.i + 0x100) = some (0, st))
    (hlen : st.out.length ≤ load16 mem (sc.i + 40) * 2 ^ 10) :
    candidate fuel mem n sc =
      Step.next
        { i := sc.i + (0x100 + load32 mem (sc.i + 36)),
          size := sc.size + load16 mem (sc.i + 40) * 2 ^ 10,
          output := sc.output ++ st.out.map some
            ++ List.replicate (load16 mem (sc.i + 40) * 2 ^ 10 - st.out.length) none } := by
  have h42 : ¬ n - sc.i + 3 < 42 := by omega
  unfold candidate
  rw [if_pos hsig]
  dsimp only
  rw [if_neg h42, if_neg (not_not.2 hz), if_pos hv, if_neg (Nat.not_lt.2 hr4),
    if_neg (by rw [hc]; decide), if_neg (Nat.not_lt.2 hs), if_neg (Nat.not_lt.2 hd),
    if_neg (Nat.not_lt.2 hr), if_neg (by rw [hc]; decide), if_pos hc, hdec]
  dsimp only
  rw [if_neg (Nat.not_lt.2 hlen), if_neg (by decide)]

theorem candidate_accepted_witness :
    candidate 3 sampleBlockFile 300 ⟨0, 0, []⟩
      = Step.next ⟨263, 1024, [some 130, some 130] ++ List.replicate 1022 none⟩ :=
  (candidate_accepted 3 sampleBlockFile 300 ⟨0, 0, []⟩
    (finalState (decompress 3 sampleBlockFile 256))
    (by decide) (by decide) (by decide) (by decide) (by decide) (by decide) (by decide)
    (by decide) rfl (by decide)).trans rfl

/-- C10: in the 257-byte file `sampleFile 4` the header at offset 0 declares a
payload of S = 4 bytes after a 256-byte header, so i + h + S = 260 > 257, yet
the candidate passes the test `rest < header_size + compressed_size` (`rest` is
`input_size - i + 3`) and `decompress` is run on it. -/
theorem candidate_past_end :
    candidate 1 (sampleFile 4) 257 ⟨0, 0, []⟩
      = Step.next ⟨260, 1024, List.replicate 1024 none⟩ ∧
    257 < 0 + 0x100 + load32 (sampleFile 4) 36 ∧
    comextract 1 (sampleFile 4) 257
      = Result.done 0 (some (List.replicate 1024 none, 1024)) := by
  refine ⟨rfl, by decide, rfl⟩

set_option maxRecDepth 100000 in
/-- C11: in the 600-byte file `twoSegments` a valid compressed segment stands
at offset 0 (h = 256, S = 1) and a second one directly behind it at offset 257
= i + h + S, which the body would accept if it were examined; but after the
first segment the loop adds its own `i++` to `i += header_size +
compressed_size` and goes on at offset 258, so the second segment is never
found and only the 1024 bytes of the first are returned. -/
theorem comextract_skips_adjacent :
    candidate 1 twoSegments 600 ⟨0, 0, []⟩
      = Step.next ⟨257, 1024, List.replicate 1024 none⟩ ∧
    candidate 1 twoSegments 600 ⟨257, 1024, List.replicate 1024 none⟩
      = Step.next ⟨514, 2048, List.replicate 2048 none⟩ ∧
    (∀ k, scan 1 twoSegments 600 (k + 1) ⟨0, 0, []⟩
      = scan 1 twoSegments 600 k ⟨258, 1024, List.replicate 1024 none⟩) ∧
    comextract 1 twoSegments 600
      = Result.done 0 (some (List.replicate 1024 none, 1024)) := by
  refine ⟨rfl, rfl, fun k => ?_, rfl⟩
  exact scan_next 1 twoSegments 600 k ⟨0, 0, []⟩ ⟨257, 1024, List.replicate 1024 none⟩
    (by decide) rfl

/-- While `build_table` runs, the reader's bit position grows by one for each
`check` call and by eight for each `apply` call. -/
theorem build_sync (base : Nat) : ∀ (fuel pos : Nat) (s : State) (r : Nat) (s2 : State),
    Synced base pos s → build_table fuel s = some (r, s2) →
    ∃ pos2, Synced base pos2 s2 ∧
      pos2 + s.nCheck + 8 * s.nApply = pos + s2.nCheck + 8 * s2.nApply ∧
      s.nCheck ≤ s2.nCheck ∧ s.nApply ≤ s2.nApply := by
  intro fuel
  induction fuel with
  | zero => intro pos s r s2 _ h; simp [build_table] at h
  | succ fuel ih =>
    intro pos s r s2 hs h
    obtain ⟨-, hs1⟩ := check_synced base pos s hs
    by_cases hb : (check s).1 = 0
    · rw [build_table_leaf fuel s hb] at h
      injection h with h
      injection h with hr h
      subst h
      exact ⟨pos + 1 + 8, apply_synced base (pos + 1) _ hs1, by simp; omega, by simp, by simp⟩
    by_cases hfull : 511 ≤ (s.node + 1) % 65536
    · rw [build_table_full fuel s hb hfull] at h
      injection h with h
      injection h with hr h
      subst h
      exact ⟨pos + 1, hs1, by simp; omega, by simp, by simp⟩
    rw [build_table_node fuel s hb (by omega)] at h
    split at h
    · exact absurd h (by simp)
    rename_i r3 s3 e3
    obtain ⟨p3, hs3, hq3, hc3, ha3⟩ :=
      ih (pos + 1) { (check s).2 with node := (s.node + 1) % 65536 } r3 s3 hs1 e3
    simp only [check_nCheck, check_nApply] at hq3 hc3 ha3
    by_cases h3 : r3 = 0
    swap
    · rw [if_neg h3] at h
      injection h with h
      injection h with hr h
      subst h
      exact ⟨p3, hs3, by omega, by omega, ha3⟩
    rw [if_pos h3] at h
    split at h
    · exact absurd h (by simp)
    rename_i r5 s5 e5
    obtain ⟨p5, hs5, hq5, hc5, ha5⟩ :=
      ih p3 { s3 with big := store s3.big (2 * ((s.node + 1) % 65536) % 65536) s3.value }
        r5 s5 hs3 e5
    simp only at hq5 hc5 ha5
    by_cases h5 : r5 = 0
    · rw [if_pos h5] at h
      injection h with h
      injection h with hr h
      subst h
      exact ⟨p5, hs5, by dsimp only; omega, by dsimp only; omega, by dsimp only; omega⟩
    · rw [if_neg h5] at h
      injection h with h
      injection h with hr h
      subst h
      exact ⟨p5, hs5, by omega, by omega, by omega⟩

/-- While the inner loop of `decode_block` runs, the reader's bit position
grows by one for each `check` call. -/
theorem walk_sync (base : Nat) : ∀ (fuel pos : Nat) (s s2 : State),
    Synced base pos s → walk fuel s = some s2 →
    ∃ pos2, Synced base pos2 s2 ∧ pos2 + s.nCheck = pos + s2.nCheck ∧
      s.nCheck ≤ s2.nCheck ∧ s2.nApply = s.nApply ∧ s2.out = s.out ∧ s2.num = s.num := by
  intro fuel
  induction fuel with
  | zero =>
    intro pos s s2 hs h
    simp only [walk] at h
    split at h
    · exact absurd h (by simp)
    · injection h with h; subst h
      exact ⟨pos, hs, rfl, Nat.le_refl _, rfl, rfl, rfl⟩
  | succ fuel ih =>
    intro pos s s2 hs h
    by_cases hv : 256 ≤ s.value
    · obtain ⟨-, hs1⟩ := check_synced base pos s hs
      rw [walk_node fuel s hv] at h
      split at h
      · obtain ⟨p2, g1, g2, g3, g4, g5, g6⟩ :=
          ih (pos + 1) { (check s).2 with value := s.small (s.value * 2 % 65536) % 65536 } s2
            hs1 h
        simp only [check_nCheck, check_nApply, check_out, check_num] at g2 g3 g4 g5 g6
        exact ⟨p2, g1, by omega, by omega, g4, g5, g6⟩
      · obtain ⟨p2, g1, g2, g3, g4, g5, g6⟩ :=
          ih (pos + 1) { (check s).2 with value := s.big (s.value * 2 % 65536) % 65536 } s2
            hs1 h
        simp only [check_nCheck, check_nApply, check_out, check_num] at g2 g3 g4 g5 g6
        exact ⟨p2, g1, by omega, by omega, g4, g5, g6⟩
    · rw [walk_leaf (fuel + 1) s (by omega)] at h
      injection h with h; subst h
      exact ⟨pos, hs, rfl, Nat.le_refl _, rfl, rfl, rfl⟩

/-- The symbol loop emits one byte per pass and moves the reader by one bit for
each `check` call. -/
theorem emitLoop_sync (base root : Nat) : ∀ (k pos : Nat) (s s2 : State),
    Synced base pos s → emitLoop root k s = some s2 →
    ∃ pos2, Synced base pos2 s2 ∧ pos2 + s.nCheck = pos + s2.nCheck ∧
      s.nCheck ≤ s2.nCheck ∧ s2.nApply = s.nApply ∧
      s2.out.length = s.out.length + (k + 1) ∧ s2.num = s.num + (k + 1) := by
  have step : ∀ (pos : Nat) (s s2 : State), Synced base pos s → emit root s = some s2 →
      ∃ pos2, Synced base pos2 s2 ∧ pos2 + s.nCheck = pos + s2.nCheck ∧
        s.nCheck ≤ s2.nCheck ∧ s2.nApply = s.nApply ∧
        s2.out.length = s.out.length + 1 ∧ s2.num = s.num + 1 := by
    intro pos s s2 hs h
    simp only [emit] at h
    split at h
    · exact absurd h (by simp)
    rename_i s1 e1
    injection h with h; subst h
    obtain ⟨p2, g1, g2, g3, g4, g5, g6⟩ := walk_sync base 256 pos { s with value := root } s1 hs e1
    simp only at g2 g3 g4 g5 g6
    exact ⟨p2, g1, g2, g3, g4, by simp [g5], by simp [g6]⟩
  intro k
  induction k with
  | zero =>
    intro pos s s2 hs h
    exact step pos s s2 hs (by simpa [emitLoop] using h)
  | succ k ih =>
    intro pos s s2 hs h
    simp only [emitLoop] at h
    split at h
    · exact absurd h (by simp)
    rename_i s1 e1
    obtain ⟨p1, g1, g2, g3, g4, g5, g6⟩ := step pos s s1 hs e1
    obtain ⟨p2, f1, f2, f3, f4, f5, f6⟩ := ih p1 s1 s2 g1 h
    exact ⟨p2, f1, by omega, by omega, by omega, by omega, by omega⟩

/-- What a successful `decode_block` call leaves behind, in terms of the state
`s3` the symbol loop ended in and the bit position `B` it reached. -/
theorem decode_block_end (s s2 : State) (h : decode_block s = some (0, s2)) :
    ∃ (s3 : State) (B : Nat), Synced (s.cur + 3) B s3 ∧
      B + s.nCheck + 8 * s.nApply = s3.nCheck + 8 * s3.nApply ∧
      s.nCheck ≤ s3.nCheck ∧ s.nApply ≤ s3.nApply ∧
      s2 = { s3 with cur := s3.cur - (if s3.cnt = 0 then 2 else 1) } := by
  generalize hk : (count24 s.mem s.cur + 4294967295) % 4294967296 = k
  rw [decode_block_eq s k hk] at h
  split at h
  · exact absurd h (by simp)
  rename_i r s1 e1
  obtain ⟨p1, hs1, hq1, hc1, ha1⟩ := build_sync (s.cur + 3) 256 0 (seed s) r s1 (seed_synced s) e1
  simp only [seed, Nat.zero_add] at hq1 hc1 ha1
  by_cases hr : r = 0
  swap
  · rw [if_neg hr] at h
    exact absurd (Prod.mk.inj (Option.some.inj h)).1 hr
  rw [if_pos hr] at h
  split at h
  · exact absurd h (by simp)
  rename_i s3 e3
  obtain ⟨p3, hs3, hq3, hc3, ha3, -, -⟩ := emitLoop_sync (s.cur + 3) s1.value k p1 s1 s3 hs1 e3
  refine ⟨s3, p3, hs3, by omega, by omega, by omega, ?_⟩
  by_cases h0 : s3.cnt = 0
  · rw [if_pos h0] at h ⊢
    have h2 := (Prod.mk.inj (Option.some.inj h)).2
    rw [← h2, Nat.sub_sub]
  · rw [if_neg h0] at h ⊢
    have h2 := (Prod.mk.inj (Option.some.inj h)).2
    rw [← h2]

/-- C13: the end-of-block rewind compensates exactly for the bytes the register
refills read ahead. For every successful `decode_block` call on a block at byte
offset p that consumed B bits in all (one per `check` call, eight per `apply`
call, counted from the bitstream at offset p+3), the cursor on return is
p + 3 + ceil(B/8): before the rewind it stands two bytes past byte floor(B/8)
of the bitstream, and the rewind takes back 1 byte when the bit counter
(B mod 8) is non-zero and 2 bytes when it is zero. -/
theorem decode_block_cursor (s s2 : State) (h : decode_block s = some (0, s2)) :
    s.nCheck ≤ s2.nCheck ∧ s.nApply ≤ s2.nApply ∧
    s2.cnt = ((s2.nCheck - s.nCheck) + 8 * (s2.nApply - s.nApply)) % 8 ∧
    s2.cur + (if s2.cnt = 0 then 2 else 1)
      = s.cur + 3 + ((s2.nCheck - s.nCheck) + 8 * (s2.nApply - s.nApply)) / 8 + 2 ∧
    s2.cur = s.cur + 3 + ((s2.nCheck - s.nCheck) + 8 * (s2.nApply - s.nApply) + 7) / 8 := by
  obtain ⟨s3, B, ⟨hc, hcur, -⟩, hq, h1, h2, rfl⟩ := decode_block_end s s2 h
  have hB : (s3.nCheck - s.nCheck) + 8 * (s3.nApply - s.nApply) = B := by omega
  dsimp only
  rw [hB]
  refine ⟨h1, h2, hc, ?_, ?_⟩
  · by_cases h0 : s3.cnt = 0
    · rw [if_pos h0]; omega
    · rw [if_neg h0]; omega
  · by_cases h0 : s3.cnt = 0
    · rw [if_pos h0]; omega
    · rw [if_neg h0]; omega

theorem decode_block_cursor_witness :
    (initState (memOf [0, 0, 4, 0x90, 0x48, 0x54]) 0).nCheck
      ≤ (finalState (decode_block (initState (memOf [0, 0, 4, 0x90, 0x48, 0x54]) 0))).nCheck ∧
    (initState (memOf [0, 0, 4, 0x90, 0x48, 0x54]) 0).nApply
      ≤ (finalState (decode_block (initState (memOf [0, 0, 4, 0x90, 0x48, 0x54]) 0))).nApply ∧
    (finalState (decode_block (initState (memOf [0, 0, 4, 0x90, 0x48, 0x54]) 0))).cnt
      = (((finalState (decode_block (initState (memOf [0, 0, 4, 0x90, 0x48, 0x54]) 0))).nCheck
            - (initState (memOf [0, 0, 4, 0x90, 0x48, 0x54]) 0).nCheck)
          + 8 * ((finalState (decode_block (initState (memOf [0, 0, 4, 0x90, 0x48, 0x54]) 0))).nApply
            - (initState (memOf [0, 0, 4, 0x90, 0x48, 0x54]) 0).nApply)) % 8 ∧
    (finalState (decode_block (initState (memOf [0, 0, 4, 0x90, 0x48, 0x54]) 0))).cur
        + (if (finalState (decode_block (initState (memOf [0, 0, 4, 0x90, 0x48, 0x54]) 0))).cnt = 0
            then 2 else 1)
      = (initState (memOf [0, 0, 4, 0x90, 0x48, 0x54]) 0).cur + 3
        + (((finalState (decode_block (initState (memOf [0, 0, 4, 0x90, 0x48, 0x54]) 0))).nCheck
            - (initState (memOf [0, 0, 4, 0x90, 0x48, 0x54]) 0).nCheck)
          + 8 * ((finalState (decode_block (initState (memOf [0, 0, 4, 0x90, 0x48, 0x54]) 0))).nApply
            - (initState (memOf [0, 0, 4, 0x90, 0x48, 0x54]) 0).nApply)) / 8 + 2 ∧
    (finalState (decode_block (initState (memOf [0, 0, 4, 0x90, 0x48, 0x54]) 0))).cur
      = (initState (memOf [0, 0, 4, 0x90, 0x48, 0x54]) 0).cur + 3
        + (((finalState (decode_block (initState (memOf [0, 0, 4, 0x90, 0x48, 0x54]) 0))).nCheck
            - (initState (memOf [0, 0, 4, 0x90, 0x48, 0x54]) 0).nCheck)
          + 8 * ((finalState (decode_block (initState (memOf [0, 0, 4, 0x90, 0x48, 0x54]) 0))).nApply
            - (initState (memOf [0, 0, 4, 0x90, 0x48, 0x54]) 0).nApply) + 7) / 8 :=
  decode_block_cursor (initState (memOf [0, 0, 4, 0x90, 0x48, 0x54]) 0)
    (finalState (decode_block (initState (memOf [0, 0, 4, 0x90, 0x48, 0x54]) 0))) rfl

/-- C14: `apply` keeps the bit cursor aligned with the stream. For every
register value, every counter c in 0..7 and every stream, `apply` returns the
register's high byte as the leaf value and leaves register, counter and stream
cursor exactly as eight `check` calls from the same state leave them; the eight
bits those calls return, most significant first, write the same leaf byte; the
counter is unchanged and exactly one stream byte is consumed. -/
theorem apply_eq_eight_checks (s : State) (hc : s.cnt < 8) :
    (apply s).value = s.reg / 256 % 256 ∧
    (apply s).reg = (checkN 8 s).2.reg ∧ (apply s).cnt = (checkN 8 s).2.cnt ∧
    (apply s).cur = (checkN 8 s).2.cur ∧
    bitsVal (checkN 8 s).1 = (apply s).value ∧ (checkN 8 s).1.length = 8 ∧
    (apply s).cnt = s.cnt ∧ (apply s).cur = s.cur + 1 := by
  have h1 := apply_checks_state s hc
  have h2 := apply_checks_bits s hc
  refine ⟨rfl, by rw [h1], by rw [h1], by rw [h1], h2, rfl, rfl, rfl⟩

theorem apply_eq_eight_checks_witness :
    (apply { initState (memOf [0xAB, 0xCD]) 0 with reg := 0x1234, cnt := 3 }).value
        = 0x1234 / 256 % 256 ∧
    (apply { initState (memOf [0xAB, 0xCD]) 0 with reg := 0x1234, cnt := 3 }).reg
        = (checkN 8 { initState (memOf [0xAB, 0xCD]) 0 with reg := 0x1234, cnt := 3 }).2.reg ∧
    (apply { initState (memOf [0xAB, 0xCD]) 0 with reg := 0x1234, cnt := 3 }).cnt
        = (checkN 8 { initState (memOf [0xAB, 0xCD]) 0 with reg := 0x1234, cnt := 3 }).2.cnt ∧
    (apply { initState (memOf [0xAB, 0xCD]) 0 with reg := 0x1234, cnt := 3 }).cur
        = (checkN 8 { initState (memOf [0xAB, 0xCD]) 0 with reg := 0x1234, cnt := 3 }).2.cur ∧
    bitsVal (checkN 8 { initState (memOf [0xAB, 0xCD]) 0 with reg := 0x1234, cnt := 3 }).1
        = (apply { initState (memOf [0xAB, 0xCD]) 0 with reg := 0x1234, cnt := 3 }).value ∧
    (checkN 8 { initState (memOf [0xAB, 0xCD]) 0 with reg := 0x1234, cnt := 3 }).1.length = 8 ∧
    (apply { initState (memOf [0xAB, 0xCD]) 0 with reg := 0x1234, cnt := 3 }).cnt = 3 ∧
    (apply { initState (memOf [0xAB, 0xCD]) 0 with reg := 0x1234, cnt := 3 }).cur = 0 + 1 :=
  apply_eq_eight_checks { initState (memOf [0xAB, 0xCD]) 0 with reg := 0x1234, cnt := 3 }
    (by decide)

/-! ## The tables after a successful build -/

theorem rep_refs (big small : Nat → Nat) : ∀ (t : Tree) (lo v : Nat),
    Rep big small t lo v → 255 ≤ lo → lo + t.internal ≤ 510 → Refs big small t v := by
  intro t
  induction t with
  | leaf b => intro lo v h _ _; exact ⟨h, by rw [h]; exact b.isLt⟩
  | node l r ihl ihr =>
    intro lo v h hlo hn
    obtain ⟨hv, hl, hr⟩ := h
    simp only [Tree.internal] at hn
    subst hv
    exact ⟨by omega, by omega, ihl _ _ hl (by omega) (by omega),
      ihr _ _ hr (by omega) (by omega)⟩

theorem rep_tableOk (big small : Nat → Nat) : ∀ (t : Tree) (lo v : Nat),
    Rep big small t lo v → 255 ≤ lo →
    (v < 256 ∨ (lo < v ∧ v ≤ lo + t.internal)) ∧ TableOk big small lo (lo + t.internal) := by
  intro t
  induction t with
  | leaf b =>
    intro lo v h _
    refine ⟨Or.inl (by rw [h]; exact b.isLt), ?_⟩
    intro id h1 h2
    simp only [Tree.internal] at h2
    omega
  | node l r ihl ihr =>
    intro lo v h hlo
    obtain ⟨hv, hl, hr⟩ := h
    obtain ⟨hvl, htl⟩ := ihl _ _ hl (by omega)
    obtain ⟨hvr, htr⟩ := ihr _ _ hr (by omega)
    simp only [Tree.internal]
    refine ⟨Or.inr (by omega), ?_⟩
    intro id h1 h2
    by_cases e : id = lo + 1
    · subst e
      refine ⟨?_, ?_⟩
      · rcases hvl with h | h
        · exact Or.inl h
        · exact Or.inr (by omega)
      · rcases hvr with h | h
        · exact Or.inl h
        · exact Or.inr (by omega)
    by_cases e2 : id ≤ lo + 1 + l.internal
    · obtain ⟨a, b⟩ := htl id (by omega) e2
      refine ⟨?_, ?_⟩
      · rcases a with h | h
        · exact Or.inl h
        · exact Or.inr (by omega)
      · rcases b with h | h
        · exact Or.inl h
        · exact Or.inr (by omega)
    · obtain ⟨a, b⟩ := htr id (by omega) (by omega)
      refine ⟨?_, ?_⟩
      · rcases a with h | h
        · exact Or.inl h
        · exact Or.inr (by omega)
      · rcases b with h | h
        · exact Or.inl h
        · exact Or.inr (by omega)

/-- A successful `build_table` run from a node counter of 255 leaves tables that
hold the tree it read. -/
theorem build_rep (base pos fuel : Nat) (s s2 : State) (hs : Synced base pos s)
    (hn : s.node = 255) (h : build_table fuel s = some (0, s2)) :
    ∃ t : Tree, HasBits s.mem base pos t.bits ∧ t.internal ≤ 255 ∧
      s2.node = 255 + t.internal ∧ Rep s2.big s2.small t 255 s2.value ∧
      Synced base (pos + t.bits.length) s2 ∧ s2.mem = s.mem ∧ s2.out = s.out ∧
      s2.num = s.num := by
  obtain ⟨t, hb, hi, hd⟩ := build_parse base fuel pos s s2 hs (by omega) h
  obtain ⟨s2b, e, g1, g2, g3, g4, g5, -, -, g8, -⟩ := build_ok base t fuel pos s hs hb hi hd
  rw [h] at e
  have e2 := (Prod.mk.inj (Option.some.inj e)).2
  subst e2
  rw [hn] at g2 g8
  exact ⟨t, hb, by omega, g2, g8, g1, g3, g4, g5⟩

/-- C15: leaf values and internal-node references are told apart by the
threshold 256. After any successful `build_table` call entered with the node
counter at 255, the tables and the returned root value refer to the tree that
was read so that every leaf is referred to by its byte in 0..255 and every
internal node by an id in 256..510 whose children stand at index 2*id of
`gBigTable` and `gSmallTable`; the root value and every entry written for the
ids 256..counter is at most 510, and none of the ids falls in 0..255, whatever
the size of the tree. -/
theorem build_table_refs (base pos fuel : Nat) (s s2 : State) (hs : Synced base pos s)
    (hn : s.node = 255) (h : build_table fuel s = some (0, s2)) :
    ∃ t : Tree, HasBits s.mem base pos t.bits ∧ s2.node = 255 + t.internal ∧
      s2.node ≤ 510 ∧ Refs s2.big s2.small t s2.value ∧
      (s2.value < 256 ∨ (256 ≤ s2.value ∧ s2.value ≤ s2.node)) ∧
      ∀ id, 256 ≤ id → id ≤ s2.node →
        (s2.big (2 * id) < 256 ∨ (256 ≤ s2.big (2 * id) ∧ s2.big (2 * id) ≤ 510)) ∧
        (s2.small (2 * id) < 256 ∨ (256 ≤ s2.small (2 * id) ∧ s2.small (2 * id) ≤ 510)) := by
  obtain ⟨t, hb, hi, hnode, hrep, -⟩ := build_rep base pos fuel s s2 hs hn h
  obtain ⟨hv, htab⟩ := rep_tableOk _ _ t 255 _ hrep (Nat.le_refl _)
  rw [← hnode] at hv htab
  refine ⟨t, hb, hnode, by omega, rep_refs _ _ t 255 _ hrep (Nat.le_refl _) (by omega), ?_, ?_⟩
  · rcases hv with h1 | h1
    · exact Or.inl h1
    · exact Or.inr (by omega)
  · intro id h1 h2
    obtain ⟨a, b⟩ := htab id (by omega) h2
    refine ⟨?_, ?_⟩
    · rcases a with h3 | h3
      · exact Or.inl h3
      · exact Or.inr (by omega)
    · rcases b with h3 | h3
      · exact Or.inl h3
      · exact Or.inr (by omega)

theorem build_table_refs_witness :
    ∃ t : Tree, HasBits (seed (initState (memOf [0, 0, 4, 0x90, 0x48, 0x54]) 0)).mem (0 + 3) 0 t.bits ∧
      (finalState (build_table 256 (seed (initState (memOf [0, 0, 4, 0x90, 0x48, 0x54]) 0)))).node
        = 255 + t.internal ∧
      (finalState (build_table 256 (seed (initState (memOf [0, 0, 4, 0x90, 0x48, 0x54]) 0)))).node
        ≤ 510 ∧
      Refs (finalState (build_table 256 (seed (initState (memOf [0, 0, 4, 0x90, 0x48, 0x54]) 0)))).big
        (finalState (build_table 256 (seed (initState (memOf [0, 0, 4, 0x90, 0x48, 0x54]) 0)))).small t
        (finalState (build_table 256 (seed (initState (memOf [0, 0, 4, 0x90, 0x48, 0x54]) 0)))).value ∧
      ((finalState (build_table 256 (seed (initState (memOf [0, 0, 4, 0x90, 0x48, 0x54]) 0)))).value
          < 256 ∨
        (256 ≤ (finalState (build_table 256
            (seed (initState (memOf [0, 0, 4, 0x90, 0x48, 0x54]) 0)))).value ∧
          (finalState (build_table 256 (seed (initState (memOf [0, 0, 4, 0x90, 0x48, 0x54]) 0)))).value
            ≤ (finalState (build_table 256
                (seed (initState (memOf [0, 0, 4, 0x90, 0x48, 0x54]) 0)))).node)) ∧
      ∀ id, 256 ≤ id →
        id ≤ (finalState (build_table 256
            (seed (initState (memOf [0, 0, 4, 0x90, 0x48, 0x54]) 0)))).node →
        ((finalState (build_table 256
              (seed (initState (memOf [0, 0, 4, 0x90, 0x48, 0x54]) 0)))).big (2 * id) < 256 ∨
          (256 ≤ (finalState (build_table 256
              (seed (initState (memOf [0, 0, 4, 0x90, 0x48, 0x54]) 0)))).big (2 * id) ∧
            (finalState (build_table 256
              (seed (initState (memOf [0, 0, 4, 0x90, 0x48, 0x54]) 0)))).big (2 * id) ≤ 510)) ∧
        ((finalState (build_table 256
              (seed (initState (memOf [0, 0, 4, 0x90, 0x48, 0x54]) 0)))).small (2 * id) < 256 ∨
          (256 ≤ (finalState (build_table 256
              (seed (initState (memOf [0, 0, 4, 0x90, 0x48, 0x54]) 0)))).small (2 * id) ∧
            (finalState (build_table 256
              (seed (initState (memOf [0, 0, 4, 0x90, 0x48, 0x54]) 0)))).small (2 * id) ≤ 510)) :=
  build_table_refs (0 + 3) 0 256 (seed (initState (memOf [0, 0, 4, 0x90, 0x48, 0x54]) 0))
    (finalState (build_table 256 (seed (initState (memOf [0, 0, 4, 0x90, 0x48, 0x54]) 0))))
    (seed_synced (initState (memOf [0, 0, 4, 0x90, 0x48, 0x54]) 0)) rfl rfl

/-! ## The tables of an earlier block do not matter -/

theorem check_withTables (s : State) (b c : Nat → Nat) :
    check (withTables s b c) = ((check s).1, withTables (check s).2 b c) := by
  unfold check withTables
  dsimp only
  by_cases h8 : Nat.land ((s.cnt + 1) % 256) 8 = 8
  · rw [if_pos h8, if_pos h8]
  · rw [if_neg h8, if_neg h8]

theorem apply_withTables (s : State) (b c : Nat → Nat) :
    apply (withTables s b c) = withTables (apply s) b c := rfl

/-- The result of `build_table` and everything it leaves behind but the tables
do not depend on what the tables held before. -/
theorem build_sim : ∀ (fuel : Nat) (s : State) (b c : Nat → Nat) (r : Nat) (s2 : State),
    build_table fuel s = some (r, s2) →
    ∃ b2 c2, build_table fuel (withTables s b c) = some (r, withTables s2 b2 c2) := by
  intro fuel
  induction fuel with
  | zero => intro s b c r s2 h; simp [build_table] at h
  | succ fuel ih =>
    intro s b c r s2 h
    have hc1 : (check (withTables s b c)).1 = (check s).1 := by rw [check_withTables]
    have hc2 : (check (withTables s b c)).2 = withTables (check s).2 b c := by
      rw [check_withTables]
    have hnode : (withTables s b c).node = s.node := rfl
    by_cases hb : (check s).1 = 0
    · rw [build_table_leaf fuel s hb] at h
      have e := (Prod.mk.inj (Option.some.inj h))
      rw [build_table_leaf fuel _ (by rw [hc1]; exact hb), hc2, apply_withTables, ← e.1, ← e.2]
      exact ⟨b, c, rfl⟩
    by_cases hfull : 511 ≤ (s.node + 1) % 65536
    · rw [build_table_full fuel s hb hfull] at h
      have e := (Prod.mk.inj (Option.some.inj h))
      rw [build_table_full fuel _ (by rw [hc1]; exact hb) (by rw [hnode]; exact hfull), hc2,
        hnode, ← e.1, ← e.2]
      exact ⟨b, c, rfl⟩
    rw [build_table_node fuel s hb (by omega)] at h
    rw [build_table_node fuel _ (by rw [hc1]; exact hb) (by rw [hnode]; omega), hc2, hnode]
    split at h
    · exact absurd h (by simp)
    rename_i r3 s3 e3
    obtain ⟨b3, c3, e3b⟩ :=
      ih { (check s).2 with node := (s.node + 1) % 65536 } b c r3 s3 e3
    have e3c : build_table fuel
        { withTables (check s).2 b c with node := (s.node + 1) % 65536 }
        = some (r3, withTables s3 b3 c3) := e3b
    rw [e3c]
    by_cases h3 : r3 = 0
    swap
    · rw [if_neg h3] at h
      have e := (Prod.mk.inj (Option.some.inj h))
      simp only [if_neg h3]
      rw [← e.1, ← e.2]
      exact ⟨b3, c3, rfl⟩
    rw [if_pos h3] at h
    simp only [if_pos h3]
    split at h
    · exact absurd h (by simp)
    rename_i r5 s5 e5
    obtain ⟨b5, c5, e5b⟩ :=
      ih { s3 with big := store s3.big (2 * ((s.node + 1) % 65536) % 65536) s3.value }
        (store b3 (2 * ((s.node + 1) % 65536) % 65536) s3.value) c3 r5 s5 e5
    have e5c : build_table fuel
        { withTables s3 b3 c3 with
          big := store (withTables s3 b3 c3).big (2 * ((s.node + 1) % 65536) % 65536)
            (withTables s3 b3 c3).value }
        = some (r5, withTables s5 b5 c5) := e5b
    rw [e5c]
    by_cases h5 : r5 = 0
    · rw [if_pos h5] at h
      have e := (Prod.mk.inj (Option.some.inj h))
      simp only [if_pos h5]
      rw [← e.1, ← e.2]
      exact ⟨b5, store c5 (2 * ((s.node + 1) % 65536) % 65536) s5.value, rfl⟩
    · rw [if_neg h5] at h
      have e := (Prod.mk.inj (Option.some.inj h))
      simp only [if_neg h5]
      rw [← e.1, ← e.2]
      exact ⟨b5, c5, rfl⟩

theorem streamBits_length (mem : Nat → Nat) (base : Nat) : ∀ (n pos : Nat),
    (streamBits mem base pos n).length = n := by
  intro n
  induction n with
  | zero => intro pos; rfl
  | succ n ih => intro pos; simp only [streamBits, List.length_cons, ih]

theorem hasBits_streamBits (mem : Nat → Nat) (base : Nat) : ∀ (n pos : Nat),
    HasBits mem base pos (streamBits mem base pos n) := by
  intro n
  induction n with
  | zero => intro pos; exact trivial
  | succ n ih =>
    intro pos
    refine ⟨?_, ih (pos + 1)⟩
    have := bitAt_lt mem base pos
    by_cases h : bitAt mem base pos = 1
    · simp only [h, decide_True, if_true]
    · simp only [h, decide_False, Bool.false_eq_true, if_false]
      omega

/-- With at least as many bits as the tree has levels below the root, the
reference decoder reaches a leaf. -/
theorem Tree.decode1_some (t : Tree) : ∀ bs : List Bool, t.depth ≤ bs.length + 1 →
    ∃ b rest, t.decode1 bs = some (b, rest) := by
  induction t with
  | leaf c => intro bs _; exact ⟨c.val, bs, rfl⟩
  | node l r ihl ihr =>
    intro bs h
    simp only [Tree.depth] at h
    have hmax : l.depth ≤ bs.length ∧ r.depth ≤ bs.length := by
      have := Nat.le_max_left l.depth r.depth
      have := Nat.le_max_right l.depth r.depth
      omega
    cases bs with
    | nil =>
      have : 1 ≤ l.depth := by cases l <;> simp [Tree.depth]
      simp only [List.length_nil] at hmax
      omega
    | cons b0 bs =>
      simp only [List.length_cons] at hmax
      cases b0 with
      | true => simpa [Tree.decode1] using ihr bs hmax.2
      | false => simpa [Tree.decode1] using ihl bs hmax.1

/-- Two runs of the symbol loop over the same stream, from the same bit
position and on tables that hold the same tree, emit the same bytes and end
at the same bit position. -/
theorem emitLoop_agree (base : Nat) (t : Tree) (root : Nat) (ht : t.internal ≤ 255) :
    ∀ (k pos : Nat) (s s' : State),
    Rep s.big s.small t 255 root → Rep s'.big s'.small t 255 root →
    Synced base pos s → Synced base pos s' → s'.mem = s.mem → s'.out = s.out →
    s'.num = s.num →
    ∃ s2 s2' pos2, emitLoop root k s = some s2 ∧ emitLoop root k s' = some s2' ∧
      Synced base pos2 s2 ∧ Synced base pos2 s2' ∧ s2'.mem = s2.mem ∧ s2'.out = s2.out ∧
      s2'.num = s2.num := by
  have hdep := Tree.depth_le t
  have step : ∀ (pos : Nat) (s s' : State),
      Rep s.big s.small t 255 root → Rep s'.big s'.small t 255 root →
      Synced base pos s → Synced base pos s' → s'.mem = s.mem → s'.out = s.out →
      s'.num = s.num →
      ∃ s2 s2' pos2, emit root s = some s2 ∧ emit root s' = some s2' ∧
        Synced base pos2 s2 ∧ Synced base pos2 s2' ∧ s2'.mem = s2.mem ∧ s2'.out = s2.out ∧
        s2'.num = s2.num ∧ Rep s2.big s2.small t 255 root ∧
        Rep s2'.big s2'.small t 255 root := by
    intro pos s s' hr hr' hs hs' hm ho hu
    obtain ⟨b, rest, hd⟩ := Tree.decode1_some t (streamBits s.mem base pos 256)
      (by rw [streamBits_length]; omega)
    have hb := hasBits_streamBits s.mem base 256 pos
    obtain ⟨s2, e, g1, g2, -, g4, -, g6, g7, g8, -, -⟩ :=
      emit_ok base t 255 root pos _ s b rest hr (Nat.le_refl _) (by omega) hs hb hd
    obtain ⟨s2', e', f1, f2, -, f4, -, f6, f7, f8, -, -⟩ :=
      emit_ok base t 255 root pos _ s' b rest hr' (Nat.le_refl _) (by omega) hs'
        (by rw [hm]; exact hb) hd
    exact ⟨s2, s2', _, e, e', g4, f4, by rw [f6, g6, hm], by rw [f1, g1, ho],
      by rw [f2, g2, hu], by rw [g7, g8]; exact hr, by rw [f7, f8]; exact hr'⟩
  intro k
  induction k with
  | zero =>
    intro pos s s' hr hr' hs hs' hm ho hu
    obtain ⟨s2, s2', p2, e, e', g1, g2, g3, g4, g5, -, -⟩ := step pos s s' hr hr' hs hs' hm ho hu
    exact ⟨s2, s2', p2, by simpa [emitLoop] using e, by simpa [emitLoop] using e', g1, g2, g3,
      g4, g5⟩
  | succ k ih =>
    intro pos s s' hr hr' hs hs' hm ho hu
    obtain ⟨s1, s1', p1, e, e', g1, g2, g3, g4, g5, g6, g7⟩ :=
      step pos s s' hr hr' hs hs' hm ho hu
    obtain ⟨s2, s2', p2, f, f', h1, h2, h3, h4, h5⟩ := ih p1 s1 s1' g6 g7 g1 g2 g3 g4 g5
    exact ⟨s2, s2', p2, by simp only [emitLoop, e, f], by simp only [emitLoop, e', f'],
      h1, h2, h3, h4, h5⟩

/-- C16: a decode tree never persists across blocks. For every input block and
any other contents of `gBigTable` and `gSmallTable` on entry (zero-filled, left
over from an earlier block, anything), `decode_block` returns the same result,
emits the same bytes, counts the same `gNumDecodedBytes` and leaves the stream
cursor at the same position. -/
theorem decode_block_tables (s : State) (b c : Nat → Nat) :
    ∃ r s2 s2', decode_block s = some (r, s2) ∧
      decode_block (withTables s b c) = some (r, s2') ∧
      s2'.out = s2.out ∧ s2'.cur = s2.cur ∧ s2'.num = s2.num := by
  obtain ⟨r, s1, e1, -, -, -⟩ :=
    build_table_fuel 256 (seed s) (by simp [seed]) (by simp [seed])
  obtain ⟨b1, c1, e1'⟩ := build_sim 256 (seed s) b c r s1 e1
  have hseed : seed (withTables s b c) = withTables (seed s) b c := rfl
  generalize hk : (count24 s.mem s.cur + 4294967295) % 4294967296 = k
  have hk' : (count24 (withTables s b c).mem (withTables s b c).cur + 4294967295) % 4294967296
      = k := hk
  rw [decode_block_eq s k hk, decode_block_eq (withTables s b c) k hk', hseed, e1, e1']
  by_cases hr : r = 0
  swap
  · simp only [if_neg hr]
    exact ⟨r, s1, withTables s1 b1 c1, rfl, rfl, rfl, rfl, rfl⟩
  subst hr
  simp only [if_true]
  obtain ⟨t, hb, ht, -, hrep, hs1, -⟩ :=
    build_rep (s.cur + 3) 0 256 (seed s) s1 (seed_synced s) rfl e1
  have hdep := Tree.depth_le t
  obtain ⟨s1b, e1b, hs1', -, -, -, -, -, -, hrep', -⟩ :=
    build_ok (s.cur + 3) t 256 0 (withTables (seed s) b c) (seed_synced s) hb
      (by simp only [withTables, seed]; omega) (by omega)
  rw [e1'] at e1b
  have e2 := (Prod.mk.inj (Option.some.inj e1b)).2
  subst e2
  obtain ⟨s2, s2', p2, f, f', g1, g2, -, g4, g5⟩ :=
    emitLoop_agree (s.cur + 3) t s1.value ht k (0 + t.bits.length) s1 (withTables s1 b1 c1)
      hrep hrep' hs1 hs1' rfl rfl rfl
  have f'' : emitLoop (withTables s1 b1 c1).value k (withTables s1 b1 c1) = some s2' := f'
  rw [f, f'']
  dsimp only
  have hcnt : s2'.cnt = s2.cnt := by rw [g1.1, g2.1]
  have hcur : s2'.cur = s2.cur := by rw [g1.2.1, g2.2.1]
  by_cases h0 : s2.cnt = 0
  · rw [if_pos h0, if_pos (by rw [hcnt]; exact h0)]
    exact ⟨0, _, _, rfl, rfl, g4, by dsimp only; rw [hcur], g5⟩
  · rw [if_neg h0, if_neg (by rw [hcnt]; exact h0)]
    exact ⟨0, _, _, rfl, rfl, g4, by dsimp only; rw [hcur], g5⟩

/-! ## The count of a block -/

theorem count_or (a b c : Nat) (hb : b < 256) (hc : c < 256) :
    c ||| (b <<< 8) ||| (a <<< 16) = a * 65536 + b * 256 + c := by
  have h1 : 2 ^ 8 * b + c = 2 ^ 8 * b ||| c := Nat.mul_add_lt_is_or (by omega) b
  have h2 : 2 ^ 16 * a + (2 ^ 8 * b + c) = 2 ^ 16 * a ||| (2 ^ 8 * b + c) :=
    Nat.mul_add_lt_is_or (by omega) a
  rw [Nat.shiftLeft_eq, Nat.shiftLeft_eq, Nat.or_comm c, Nat.or_comm _ (a * 2 ^ 16),
    Nat.mul_comm b, Nat.mul_comm a, ← h1, ← h2]
  omega

/-- The symbol loop of a successful `decode_block` call makes `k + 1` passes
and emits one byte in each. -/
theorem decode_block_passes (s s2 : State) (k : Nat)
    (hk : (count24 s.mem s.cur + 4294967295) % 4294967296 = k)
    (h : decode_block s = some (0, s2)) :
    s2.num = s.num + (k + 1) ∧ s2.out.length = s.out.length + (k + 1) := by
  rw [decode_block_eq s k hk] at h
  split at h
  · exact absurd h (by simp)
  rename_i r s1 e1
  by_cases hr : r = 0
  swap
  · rw [if_neg hr] at h
    exact absurd (Prod.mk.inj (Option.some.inj h)).1 hr
  subst hr
  rw [if_pos rfl] at h
  obtain ⟨t, -, -, -, -, hs1, -, ho, hu⟩ :=
    build_rep (s.cur + 3) 0 256 (seed s) s1 (seed_synced s) rfl e1
  split at h
  · exact absurd h (by simp)
  rename_i s3 e3
  obtain ⟨p3, -, -, -, -, g5, g6⟩ :=
    emitLoop_sync (s.cur + 3) s1.value k _ s1 s3 hs1 e3
  have hu2 : s1.num = s.num := hu
  have ho2 : s1.out = s.out := ho
  rw [hu2] at g6
  rw [ho2] at g5
  by_cases h0 : s3.cnt = 0
  · rw [if_pos h0] at h
    have h2 := (Prod.mk.inj (Option.some.inj h)).2
    rw [← h2]
    exact ⟨g6, g5⟩
  · rw [if_neg h0] at h
    have h2 := (Prod.mk.inj (Option.some.inj h)).2
    rw [← h2]
    exact ⟨g6, g5⟩

/-- C17: for every three leading block bytes b0, b1, b2, `decode_block`
rebuilds the count as N = b2 | b1<<8 | b0<<16, so 0 <= N <= 16777215: the value
read back from the four bytes of `first` is N, the bitstream starts three bytes
after the start of the block (the register is seeded from bytes 3 and 4 and the
cursor then stands at byte 5), and although the second byte of the count
buffer then serves as the bit counter, a successful call emits exactly N bytes
when N >= 1. -/
theorem decode_block_count (s : State) :
    count24 s.mem s.cur
      = load s.mem (s.cur + 2) ||| (load s.mem (s.cur + 1) <<< 8) ||| (load s.mem s.cur <<< 16) ∧
    count24 s.mem s.cur ≤ 16777215 ∧
    load s.mem (s.cur + 2) + load s.mem (s.cur + 1) * 256
      + load s.mem s.cur * 65536 % 4294967296 / 65536 % 256 * 65536
      + load s.mem s.cur * 65536 % 4294967296 / 16777216 % 256 * 16777216
      = count24 s.mem s.cur ∧
    (seed s).reg = load s.mem (s.cur + 3) * 256 + load s.mem (s.cur + 4) ∧
    (seed s).cur = s.cur + 3 + 2 ∧ (seed s).cnt = 0 ∧
    ∀ s2, decode_block s = some (0, s2) → 1 ≤ count24 s.mem s.cur →
      s2.num = s.num + count24 s.mem s.cur ∧
      s2.out.length = s.out.length + count24 s.mem s.cur := by
  have hlt := count24_lt s.mem s.cur
  refine ⟨?_, by omega, stored_i_eq s.mem s.cur, rfl, rfl, rfl, ?_⟩
  · rw [count_or _ _ _ (load_lt _ _) (load_lt _ _)]
    rfl
  · intro s2 h hN
    have hk : (count24 s.mem s.cur + 4294967295) % 4294967296
        = count24 s.mem s.cur - 1 := by omega
    obtain ⟨h1, h2⟩ := decode_block_passes s s2 _ hk h
    rw [Nat.sub_add_cancel hN] at h1 h2
    exact ⟨h1, h2⟩

theorem decode_block_count_witness :
    (finalState (decode_block (initState (memOf [0, 0, 4, 0x90, 0x48, 0x54]) 0))).num
      = (initState (memOf [0, 0, 4, 0x90, 0x48, 0x54]) 0).num
        + count24 (initState (memOf [0, 0, 4, 0x90, 0x48, 0x54]) 0).mem
            (initState (memOf [0, 0, 4, 0x90, 0x48, 0x54]) 0).cur ∧
    (finalState (decode_block (initState (memOf [0, 0, 4, 0x90, 0x48, 0x54]) 0))).out.length
      = (initState (memOf [0, 0, 4, 0x90, 0x48, 0x54]) 0).out.length
        + count24 (initState (memOf [0, 0, 4, 0x90, 0x48, 0x54]) 0).mem
            (initState (memOf [0, 0, 4, 0x90, 0x48, 0x54]) 0).cur :=
  (decode_block_count (initState (memOf [0, 0, 4, 0x90, 0x48, 0x54]) 0)).2.2.2.2.2.2
    (finalState (decode_block (initState (memOf [0, 0, 4, 0x90, 0x48, 0x54]) 0))) rfl (by decide)

/-! ## The bit counter and the plain bit reader -/

theorem check_cnt (t : State) (h : t.cnt < 8) : (check t).2.cnt = (t.cnt + 1) % 8 := by
  by_cases h7 : t.cnt = 7
  · rw [check_snd_7 t h7, h7]
  · rw [check_snd_lt t (by omega)]
    show t.cnt + 1 = _
    omega

theorem runOps_cnt : ∀ (ops : List Op) (s : State), s.cnt < 8 →
    (runOps ops s).2.cnt < 8 ∧ s.nCheck ≤ (runOps ops s).2.nCheck ∧
    (runOps ops s).2.cnt = (s.cnt + ((runOps ops s).2.nCheck - s.nCheck)) % 8 := by
  intro ops
  induction ops with
  | nil => intro s h; exact ⟨h, Nat.le_refl _, by simp only [runOps, Nat.sub_self]; omega⟩
  | cons op ops ih =>
    intro s h
    cases op with
    | chk =>
      have hc := check_cnt s h
      obtain ⟨g1, g2, g3⟩ := ih (check s).2 (by rw [hc]; omega)
      simp only [check_nCheck] at g2 g3
      refine ⟨g1, by simp only [runOps]; omega, ?_⟩
      simp only [runOps]
      rw [g3, hc]
      omega
    | app =>
      obtain ⟨g1, g2, g3⟩ := ih (apply s) h
      exact ⟨g1, g2, g3⟩

/-- C18: the bit-counter invariant. Starting from counter 0, after any sequence
of `check` and `apply` calls the counter is in 0..7 and equals the number of
`check` calls made modulo 8, so it is back at 0 exactly after every 8th `check`
call; and each `check` call on a counter in 0..7 returns bit 15 of the
register, and either the counter is below 7 and the call doubles the register
modulo 2^16 and increments the counter, touching nothing else, or the counter
is 7 (the 8th call) and the call resets it to 0, replaces the low byte of the
doubled register by the next unread stream byte and advances the cursor by
one. -/
theorem counter_invariant (ops : List Op) (s : State) (h0 : s.cnt = 0) :
    (runOps ops s).2.cnt < 8 ∧ s.nCheck ≤ (runOps ops s).2.nCheck ∧
    (runOps ops s).2.cnt = ((runOps ops s).2.nCheck - s.nCheck) % 8 ∧
    ∀ t : State, t.cnt < 8 →
      (check t).1 = t.reg / 2 ^ 15 % 2 ∧
      (t.cnt < 7 → (check t).2
        = { t with cnt := t.cnt + 1, reg := t.reg * 2 % 65536, nCheck := t.nCheck + 1 }) ∧
      (t.cnt = 7 → (check t).2
        = { t with cnt := 0, reg := setLow (t.reg * 2 % 65536) (load t.mem t.cur),
                   cur := t.cur + 1, nCheck := t.nCheck + 1 }) := by
  obtain ⟨g1, g2, g3⟩ := runOps_cnt ops s (by omega)
  rw [h0, Nat.zero_add] at g3
  exact ⟨g1, g2, g3, fun t _ => ⟨check_fst t, check_snd_lt t, check_snd_7 t⟩⟩

theorem counter_invariant_witness :
    (runOps [Op.chk, Op.app, Op.chk, Op.chk] (seed (initState (memOf [0, 0, 4, 0x90, 0x48, 0x54]) 0))).2.cnt
      < 8 ∧
    (seed (initState (memOf [0, 0, 4, 0x90, 0x48, 0x54]) 0)).nCheck
      ≤ (runOps [Op.chk, Op.app, Op.chk, Op.chk]
          (seed (initState (memOf [0, 0, 4, 0x90, 0x48, 0x54]) 0))).2.nCheck ∧
    (runOps [Op.chk, Op.app, Op.chk, Op.chk] (seed (initState (memOf [0, 0, 4, 0x90, 0x48, 0x54]) 0))).2.cnt
      = ((runOps [Op.chk, Op.app, Op.chk, Op.chk]
            (seed (initState (memOf [0, 0, 4, 0x90, 0x48, 0x54]) 0))).2.nCheck
          - (seed (initState (memOf [0, 0, 4, 0x90, 0x48, 0x54]) 0)).nCheck) % 8 ∧
    ∀ t : State, t.cnt < 8 →
      (check t).1 = t.reg / 2 ^ 15 % 2 ∧
      (t.cnt < 7 → (check t).2
        = { t with cnt := t.cnt + 1, reg := t.reg * 2 % 65536, nCheck := t.nCheck + 1 }) ∧
      (t.cnt = 7 → (check t).2
        = { t with cnt := 0, reg := setLow (t.reg * 2 % 65536) (load t.mem t.cur),
                   cur := t.cur + 1, nCheck := t.nCheck + 1 }) :=
  counter_invariant [Op.chk, Op.app, Op.chk, Op.chk]
    (seed (initState (memOf [0, 0, 4, 0x90, 0x48, 0x54]) 0)) rfl

theorem plainBits_length (mem : Nat → Nat) (base : Nat) : ∀ (n pos : Nat),
    (plainBits mem base pos n).length = n := by
  intro n
  induction n with
  | zero => intro pos; rfl
  | succ n ih => intro pos; simp only [plainBits, List.length_cons, ih]

theorem plainBits_add (mem : Nat → Nat) (base : Nat) : ∀ (a b pos : Nat),
    plainBits mem base pos (a + b)
      = plainBits mem base pos a ++ plainBits mem base (pos + a) b := by
  intro a
  induction a with
  | zero => intro b pos; simp [plainBits]
  | succ a ih =>
    intro b pos
    rw [show a + 1 + b = (a + b) + 1 by omega]
    simp only [plainBits, List.cons_append, ih b (pos + 1)]
    rw [show pos + 1 + a = pos + (a + 1) by omega]

/-- The bit at index `i` of what the plain reader yields from bit 0 on. -/
theorem plainBits_get (mem : Nat → Nat) (base : Nat) : ∀ (n pos i : Nat), i < n →
    (plainBits mem base pos n)[i]? = some (bitAt mem base (pos + i)) := by
  intro n
  induction n with
  | zero => intro pos i h; omega
  | succ n ih =>
    intro pos i h
    cases i with
    | zero => simp [plainBits]
    | succ i =>
      simp only [plainBits, List.getElem?_cons_succ]
      rw [ih (pos + 1) i (by omega)]
      rw [show pos + 1 + i = pos + (i + 1) by omega]

/-- The eight bits of the byte `apply` captures are the next eight stream bits. -/
theorem apply_valBits (base pos : Nat) (s : State) (h : Synced base pos s) :
    valBits (apply s).value = plainBits s.mem base pos 8 := by
  have hc : s.cnt < 8 := by rw [h.1]; exact Nat.mod_lt _ (by decide)
  have hv := apply_checks_bits s hc
  rw [(checkN_synced base 8 pos s h).1] at hv
  simp only [List.range, List.range.loop, List.map, bitsVal, List.foldl, Nat.add_zero,
    Nat.mul_zero, Nat.zero_add] at hv
  obtain ⟨e0, e1, e2, e3, e4, e5, e6, e7⟩ :=
    bits_of_val _ _ _ _ _ _ _ _ _ (bitAt_lt s.mem base pos) (bitAt_lt s.mem base (pos + 1))
      (bitAt_lt s.mem base (pos + 2)) (bitAt_lt s.mem base (pos + 3))
      (bitAt_lt s.mem base (pos + 4)) (bitAt_lt s.mem base (pos + 5))
      (bitAt_lt s.mem base (pos + 6)) (bitAt_lt s.mem base (pos + 7)) hv
  simp only [valBits, plainBits, Nat.add_assoc, Nat.reduceAdd]
  rw [← e0, ← e1, ← e2, ← e3, ← e4, ← e5, ← e6, ← e7]

/-- From a synchronised state, the bits a sequence of calls returns are the
bits the plain reader yields from the same position. -/
theorem runOps_bits (base : Nat) : ∀ (ops : List Op) (pos : Nat) (s : State),
    Synced base pos s →
    (runOps ops s).1 = plainBits s.mem base pos (runOps ops s).1.length ∧
    Synced base (pos + (runOps ops s).1.length) (runOps ops s).2 ∧
    (runOps ops s).2.mem = s.mem ∧
    (runOps ops s).1.length + s.nCheck + 8 * s.nApply
      = (runOps ops s).2.nCheck + 8 * (runOps ops s).2.nApply := by
  intro ops
  induction ops with
  | nil => intro pos s h; exact ⟨rfl, h, rfl, by simp [runOps]⟩
  | cons op ops ih =>
    intro pos s h
    cases op with
    | chk =>
      obtain ⟨hb, hs1⟩ := check_synced base pos s h
      obtain ⟨g1, g2, g3, g4⟩ := ih (pos + 1) (check s).2 hs1
      simp only [check_mem, check_nCheck, check_nApply] at g1 g3 g4
      refine ⟨?_, ?_, g3, ?_⟩
      · show (check s).1 :: (runOps ops (check s).2).1
            = plainBits s.mem base pos ((check s).1 :: (runOps ops (check s).2).1).length
        simp only [List.length_cons, plainBits]
        rw [← g1, hb]
      · show Synced base (pos + ((runOps ops (check s).2).1.length + 1)) _
        rw [show pos + ((runOps ops (check s).2).1.length + 1)
            = pos + 1 + (runOps ops (check s).2).1.length by omega]
        exact g2
      · show (runOps ops (check s).2).1.length + 1 + s.nCheck + 8 * s.nApply
            = (runOps ops (check s).2).2.nCheck + 8 * (runOps ops (check s).2).2.nApply
        omega
    | app =>
      have hs1 := apply_synced base pos s h
      obtain ⟨g1, g2, g3, g4⟩ := ih (pos + 8) (apply s) hs1
      simp only [apply_mem, apply_nCheck, apply_nApply] at g1 g3 g4
      have hv := apply_valBits base pos s h
      have hl : (valBits (apply s).value).length = 8 := rfl
      refine ⟨?_, ?_, g3, ?_⟩
      · show valBits (apply s).value ++ (runOps ops (apply s)).1
            = plainBits s.mem base pos
                (valBits (apply s).value ++ (runOps ops (apply s)).1).length
        rw [List.length_append, hl, plainBits_add, ← g1, hv]
      · show Synced base (pos + (valBits (apply s).value ++ (runOps ops (apply s)).1).length) _
        rw [List.length_append, hl,
          show pos + (8 + (runOps ops (apply s)).1.length)
            = pos + 8 + (runOps ops (apply s)).1.length by omega]
        exact g2
      · show (valBits (apply s).value ++ (runOps ops (apply s)).1).length + s.nCheck
            + 8 * s.nApply
            = (runOps ops (apply s)).2.nCheck + 8 * (runOps ops (apply s)).2.nApply
        rw [List.length_append, hl]
        omega

/-- C19: the shift-register reader refines a plain MSB-first bit reader. With
the register seeded as `decode_block` does (high byte = block byte 3, low byte =
block byte 4, counter 0, cursor at byte 5), for any sequence of `check` and
`apply` calls the bits returned (one per `check`, eight per `apply`, most
significant first) are, in order, the first bits of the expansion of the block
bytes from byte 3 on; the i-th consumed bit is bit 7 - (i mod 8) of block byte
3 + floor(i/8), and one bit is consumed per `check` call and eight per `apply`
call. -/
theorem reader_refines (ops : List Op) (s : State) :
    (runOps ops (seed s)).1
      = plainBits s.mem (s.cur + 3) 0 (runOps ops (seed s)).1.length ∧
    (∀ i, i < (runOps ops (seed s)).1.length →
      (runOps ops (seed s)).1[i]?
        = some (load s.mem (s.cur + 3 + i / 8) / 2 ^ (7 - i % 8) % 2)) ∧
    (runOps ops (seed s)).1.length + s.nCheck + 8 * s.nApply
      = (runOps ops (seed s)).2.nCheck + 8 * (runOps ops (seed s)).2.nApply := by
  obtain ⟨g1, -, -, g4⟩ := runOps_bits (s.cur + 3) ops 0 (seed s) (seed_synced s)
  have g1' : (runOps ops (seed s)).1
      = plainBits s.mem (s.cur + 3) 0 (runOps ops (seed s)).1.length := g1
  refine ⟨g1', ?_, g4⟩
  intro i hi
  have hg := plainBits_get s.mem (s.cur + 3) _ 0 i hi
  rw [← g1', Nat.zero_add] at hg
  exact hg

theorem reader_refines_witness :
    (runOps [Op.chk, Op.app, Op.chk] (seed (initState (memOf [0, 0, 4, 0x90, 0x48, 0x54]) 0))).1
      = plainBits (initState (memOf [0, 0, 4, 0x90, 0x48, 0x54]) 0).mem
          ((initState (memOf [0, 0, 4, 0x90, 0x48, 0x54]) 0).cur + 3) 0
          (runOps [Op.chk, Op.app, Op.chk]
            (seed (initState (memOf [0, 0, 4, 0x90, 0x48, 0x54]) 0))).1.length :=
  (reader_refines [Op.chk, Op.app, Op.chk] (initState (memOf [0, 0, 4, 0x90, 0x48, 0x54]) 0)).1

/-! ## The symbol walk is bounded and in range -/

/-- On tables whose child entries are leaves or larger node ids, the ids the
inner loop passes through grow strictly and stay in range. -/
theorem path_ok (lo hi : Nat) (hhi : hi ≤ 510) : ∀ (fuel : Nat) (u : State),
    TableOk u.big u.small lo hi → (u.value < 256 ∨ (lo < u.value ∧ u.value ≤ hi)) →
    (path fuel u).Pairwise (· < ·) ∧
    (∀ x ∈ path fuel u, u.value ≤ x ∧ lo < x ∧ x ≤ hi) ∧
    (path fuel u).length + (if u.value < 256 then hi + 1 else u.value) ≤ hi + 1 := by
  intro fuel
  induction fuel with
  | zero =>
    intro u _ hv
    refine ⟨List.Pairwise.nil, fun x hx => by simp [path] at hx, ?_⟩
    simp only [path, List.length_nil, Nat.zero_add]
    split <;> omega
  | succ fuel ih =>
    intro u ht hv
    by_cases h256 : u.value < 256
    · have e : path (fuel + 1) u = [] := by
        simp only [path, if_neg (show ¬ u.value ≥ 0x100 by omega)]
      rw [e]
      refine ⟨List.Pairwise.nil, fun x hx => by simp at hx, ?_⟩
      simp only [List.length_nil, Nat.zero_add, if_pos h256]
      exact Nat.le_refl _
    have hin : lo < u.value ∧ u.value ≤ hi := by omega
    obtain ⟨hb, hs⟩ := ht u.value hin.1 hin.2
    have hi2 : u.value * 2 % 65536 = 2 * u.value := by omega
    have hbm : u.big (2 * u.value) % 65536 = u.big (2 * u.value) := by omega
    have hsm : u.small (2 * u.value) % 65536 = u.small (2 * u.value) := by omega
    have e : path (fuel + 1) u = u.value ::
        path fuel
          (if (check u).1 ≠ 0 then { (check u).2 with value := u.small (2 * u.value) }
           else { (check u).2 with value := u.big (2 * u.value) }) := by
      simp only [path, if_pos (show u.value ≥ 0x100 by omega), check_small, check_big, hi2,
        hbm, hsm]
    rw [e]
    generalize hnx : (if (check u).1 ≠ 0 then { (check u).2 with value := u.small (2 * u.value) }
           else { (check u).2 with value := u.big (2 * u.value) } : State) = nx
    have hnt : nx.big = u.big ∧ nx.small = u.small ∧
        (nx.value < 256 ∨ (u.value < nx.value ∧ nx.value ≤ hi)) := by
      rw [← hnx]
      by_cases hc : (check u).1 ≠ 0
      · rw [if_pos hc]; exact ⟨check_big u, check_small u, hs⟩
      · rw [if_neg hc]; exact ⟨check_big u, check_small u, hb⟩
    obtain ⟨n1, n2, n3⟩ := hnt
    obtain ⟨g1, g2, g3⟩ := ih nx (by rw [n1, n2]; exact ht) (by omega)
    have hnil : nx.value < 256 → ∀ x, x ∈ path fuel nx → False := by
      intro hn x hx
      rw [if_pos hn] at g3
      have h0 : (path fuel nx).length = 0 := by omega
      rw [List.length_eq_zero.1 h0] at hx
      simp at hx
    refine ⟨List.Pairwise.cons ?_ g1, ?_, ?_⟩
    · intro x hx
      obtain ⟨a, b, c⟩ := g2 x hx
      rcases n3 with h | h
      · exact absurd hx (fun hx => hnil h x hx)
      · omega
    · intro x hx
      rcases List.mem_cons.1 hx with rfl | hx
      · exact ⟨Nat.le_refl _, hin.1, hin.2⟩
      · obtain ⟨a, b, c⟩ := g2 x hx
        refine ⟨?_, b, c⟩
        rcases n3 with h | h
        · exact absurd hx (fun hx => hnil h x hx)
        · omega
    · simp only [List.length_cons, if_neg h256]
      by_cases hn : nx.value < 256
      · rw [if_pos hn] at g3
        omega
      · rw [if_neg hn] at g3
        omega

/-- C20: the symbol walk of `decode_block` is bounded and in range. After a
successful `build_table` (entered as `decode_block` enters it), every child
entry stored for an internal node with id p in 256..counter is either a leaf
(below 256) or a node id strictly greater than p and at most the counter, which
is at most 510; so on these tables, from the root and whatever the stream
holds, the inner loop reaches a leaf within 255 passes, the ids it passes
through grow strictly, there are at most as many of them as internal nodes (at
most 255), and every table index 2*id it uses lies in 512..1020. -/
theorem walk_bounded (s s1 : State) (h : build_table 256 (seed s) = some (0, s1)) :
    s1.node ≤ 510 ∧ TableOk s1.big s1.small 255 s1.node ∧
    ∀ u : State, u.big = s1.big → u.small = s1.small → u.value = s1.value →
      (∃ u2, walk 255 u = some u2 ∧ u2.value < 256) ∧
      (path 256 u).Pairwise (· < ·) ∧
      (path 256 u).length ≤ s1.node - 255 ∧ (path 256 u).length ≤ 255 ∧
      ∀ id ∈ path 256 u, 256 ≤ id ∧ id ≤ 510 ∧ 512 ≤ id * 2 % 65536 ∧ id * 2 % 65536 ≤ 1020 := by
  obtain ⟨t, -, ht, hnode, hrep, -⟩ :=
    build_rep (s.cur + 3) 0 256 (seed s) s1 (seed_synced s) rfl h
  obtain ⟨hv, htab⟩ := rep_tableOk _ _ t 255 _ hrep (Nat.le_refl _)
  rw [← hnode] at hv htab
  have hdep := Tree.depth_le t
  refine ⟨by omega, htab, ?_⟩
  intro u hb hs hval
  obtain ⟨u2, e, hlt, -, -⟩ :=
    walk_total t 255 255 u (by rw [hb, hs, hval]; exact hrep) (Nat.le_refl _) (by omega)
      (by omega)
  obtain ⟨g1, g2, g3⟩ :=
    path_ok 255 s1.node (by omega) 256 u (by rw [hb, hs]; exact htab)
      (by rw [hval]; exact hv)
  have hlen : (path 256 u).length ≤ s1.node - 255 := by
    by_cases h256 : u.value < 256
    · rw [if_pos h256] at g3; omega
    · rw [if_neg h256] at g3; omega
  refine ⟨⟨u2, e, hlt⟩, g1, hlen, by omega, ?_⟩
  intro id hid
  obtain ⟨-, a, b⟩ := g2 id hid
  omega

theorem walk_bounded_witness :
    (finalState (build_table 256 (seed (initState (memOf [0, 0, 4, 0x90, 0x48, 0x54]) 0)))).node
      ≤ 510 ∧
    TableOk
      (finalState (build_table 256 (seed (initState (memOf [0, 0, 4, 0x90, 0x48, 0x54]) 0)))).big
      (finalState (build_table 256 (seed (initState (memOf [0, 0, 4, 0x90, 0x48, 0x54]) 0)))).small
      255
      (finalState (build_table 256 (seed (initState (memOf [0, 0, 4, 0x90, 0x48, 0x54]) 0)))).node ∧
    ∀ u : State,
      u.big = (finalState (build_table 256
        (seed (initState (memOf [0, 0, 4, 0x90, 0x48, 0x54]) 0)))).big →
      u.small = (finalState (build_table 256
        (seed (initState (memOf [0, 0, 4, 0x90, 0x48, 0x54]) 0)))).small →
      u.value = (finalState (build_table 256
        (seed (initState (memOf [0, 0, 4, 0x90, 0x48, 0x54]) 0)))).value →
      (∃ u2, walk 255 u = some u2 ∧ u2.value < 256) ∧
      (path 256 u).Pairwise (· < ·) ∧
      (path 256 u).length
        ≤ (finalState (build_table 256
            (seed (initState (memOf [0, 0, 4, 0x90, 0x48, 0x54]) 0)))).node - 255 ∧
      (path 256 u).length ≤ 255 ∧
      ∀ id ∈ path 256 u, 256 ≤ id ∧ id ≤ 510 ∧ 512 ≤ id * 2 % 65536 ∧ id * 2 % 65536 ≤ 1020 :=
  walk_bounded (initState (memOf [0, 0, 4, 0x90, 0x48, 0x54]) 0)
    (finalState (build_table 256 (seed (initState (memOf [0, 0, 4, 0x90, 0x48, 0x54]) 0)))) rfl

end ComExtract
